import Mathlib

/-!
# Verification of the dcc-tiler tiling search engine

A shallow embedding of the core of the `dcc-tiler` repository
(`src/tile.rs`, `src/board.rs`, `src/graph.rs`, `src/cli/tiler.rs`),
together with proofs and refutations of the frozen specification claims.

Conventions used throughout:
* Rust `usize`/`isize` become `Nat`/`Int`; `BigUint` becomes `Nat`
  (both are arbitrary-precision non-negative integers).
* Rust `Vec<Vec<_>>` grids become `List (List _)`; out-of-range reads are
  modelled with `getD` defaults, and every use in the translated code is
  guarded by the same bounds checks the Rust code performs.
* Rust `HashSet`/`HashMap` become `Finset`/functions; where the Rust code
  iterates a hash container in unspecified order, the model fixes a
  deterministic order and the accompanying comment says so.
* A Rust `panic!`/`assert!` failure is modelled by an `Option` result
  being `none` (one nesting level per distinguishable failure mode).
-/

/-- The eight compass step directions of `src/tile.rs`. -/
inductive Direction where
  | Up
  | Down
  | Left
  | Right
  | UpLeft
  | UpRight
  | DownRight
  | DownLeft
deriving DecidableEq, Repr, Fintype

/-- The two reflection axes of `src/tile.rs`. -/
inductive Axis where
  | Vertical
  | Horizontal
deriving DecidableEq, Repr

namespace Direction

/-- `Direction::opposite` from `src/tile.rs`. -/
def opposite : Direction → Direction
  | Up => Down
  | Right => Left
  | Down => Up
  | Left => Right
  | UpLeft => DownRight
  | DownRight => UpLeft
  | UpRight => DownLeft
  | DownLeft => UpRight

/-- `Direction::rotate` (90 degrees clockwise) from `src/tile.rs`. -/
def rotate : Direction → Direction
  | Up => Right
  | Right => Down
  | Down => Left
  | Left => Up
  | UpLeft => UpRight
  | UpRight => DownRight
  | DownRight => DownLeft
  | DownLeft => UpLeft

/-- `Direction::reflect` from `src/tile.rs`. -/
def reflect (d : Direction) (axis : Axis) : Direction :=
  match axis with
  | Axis.Horizontal =>
    match d with
    | Up => Down
    | Down => Up
    | UpLeft => DownLeft
    | UpRight => DownRight
    | DownLeft => UpLeft
    | DownRight => UpRight
    | x => x
  | Axis.Vertical =>
    match d with
    | Left => Right
    | Right => Left
    | UpLeft => UpRight
    | UpRight => UpLeft
    | DownLeft => DownRight
    | DownRight => DownLeft
    | x => x

/-- Whether a direction is one of the four cardinal (non-diagonal) steps. -/
def isCardinal : Direction → Bool
  | Up => true
  | Down => true
  | Left => true
  | Right => true
  | _ => false

end Direction

/-- `Tile` from `src/tile.rs`: an ordered chain of unit steps. -/
structure Tile where
  directions : List Direction
deriving DecidableEq, Repr

namespace Tile

/-- `Tile::new`. -/
def new (directions : List Direction) : Tile := ⟨directions⟩

/-- `Tile::l_tile` from `src/tile.rs`.  The Rust function starts with
`assert!(length > 0)`; the assertion failure (a panic) is modelled by the
`none` result. -/
def l_tile (length : Nat) : Option Tile :=
  if length > 0 then
    some (Tile.new (Direction.Left :: List.replicate (length - 1) Direction.Up))
  else none

/-- `Tile::box_tile` from `src/tile.rs`: the single-cell tile. -/
def box_tile : Tile := Tile.new []

/-- `Tile::t_tile` from `src/tile.rs`, with the `assert!(length > 0)` panic
modelled by `none`. -/
def t_tile (length : Nat) : Option Tile :=
  if length > 0 then
    some (Tile.new (List.replicate length Direction.Right ++
      [Direction.Up, Direction.DownRight] ++
      List.replicate (length - 1) Direction.Right))
  else none

/-- `Tile::rotate`. -/
def rotate (t : Tile) : Tile := Tile.new (t.directions.map Direction.rotate)

/-- `Tile::reflect`. -/
def reflect (t : Tile) (axis : Axis) : Tile :=
  Tile.new (t.directions.map (fun d => d.reflect axis))

end Tile

/-- `TileCollection` from `src/tile.rs`.  The Rust struct additionally caches
a `contains_single_tile : bool` flag; since the fields are private and the
only constructor computes the flag from the tiles, the flag is modelled as
the derived function `TileCollection.contains_single_tile` below. -/
structure TileCollection where
  tiles : List Tile
deriving DecidableEq, Repr

namespace TileCollection

/-- The cached `contains_single_tile` flag, as computed by
`TileCollection::new`. -/
def contains_single_tile (tc : TileCollection) : Bool :=
  tc.tiles.any (fun b => b.directions.isEmpty)

end TileCollection

/-- `Position` from `src/board.rs`: a (row, col) pair of machine integers,
with `x` the row and `y` the column. -/
structure Position where
  x : Int
  y : Int
deriving DecidableEq, Repr

namespace Position

/-- Componentwise addition of positions (used for the closed-form
description of a tile chain; the Rust code computes the same sums inside
`move_in_direction`). -/
def add (p q : Position) : Position := ⟨p.x + q.x, p.y + q.y⟩

/-- Componentwise subtraction of positions. -/
def sub (p q : Position) : Position := ⟨p.x - q.x, p.y - q.y⟩

end Position

/-- The column displacement of a direction, from the first `match` in
`RectangularBoard::move_in_direction` (`src/board.rs`). -/
def Direction.colDelta : Direction → Int
  | Direction.Left => -1
  | Direction.Right => 1
  | Direction.UpLeft => -1
  | Direction.UpRight => 1
  | Direction.DownLeft => -1
  | Direction.DownRight => 1
  | _ => 0

/-- The row displacement of a direction, from the second `match` in
`RectangularBoard::move_in_direction` (`src/board.rs`). -/
def Direction.rowDelta : Direction → Int
  | Direction.Up => -1
  | Direction.Down => 1
  | Direction.UpLeft => -1
  | Direction.UpRight => -1
  | Direction.DownLeft => 1
  | Direction.DownRight => 1
  | _ => 0

/-- The displacement vector of a direction as a `Position` delta. -/
def Direction.vec (d : Direction) : Position := ⟨d.rowDelta, d.colDelta⟩

/-- `RectangularBoard::move_in_direction` from `src/board.rs` (the Rust
method takes `&self` but never reads it). -/
def move_in_direction (p : Position) (direction : Direction) : Position :=
  ⟨p.x + direction.rowDelta, p.y + direction.colDelta⟩

/-- In-place update of the `i`-th entry of a list (the effect of a Rust
`v[i] = ...` write; out-of-range writes never occur in the guarded code). -/
def listModify {α : Type} (f : α → α) : Nat → List α → List α
  | _, [] => []
  | 0, a :: as => f a :: as
  | n + 1, a :: as => a :: listModify f n as

/-- `RectangularBoard` from `src/board.rs`.  The Rust struct derives
`Clone, PartialEq, Eq, Hash, Serialize`; the derived equality and hash
compare ALL four fields (the `#[serde(skip_serializing)]` attributes only
affect serialization).  The derived `DecidableEq` here is the same
full-structure equality. -/
structure RectangularBoard where
  width : Nat
  height : Nat
  board : List (List Bool)
  counts : List (List Nat)
deriving DecidableEq, Repr

namespace RectangularBoard

/-- The seeded count grid built by the two loops of
`RectangularBoard::new`: each loop ASSIGNS `1` (it does not add), so every
border cell ends at exactly `1`, corners included. -/
def mkCounts (width height : Nat) : List (List Nat) :=
  (List.range height).map (fun i =>
    (List.range width).map (fun j =>
      if i = 0 ∨ i = height - 1 ∨ j = 0 ∨ j = width - 1 then 1 else 0))

/-- `RectangularBoard::new` from `src/board.rs`.  The first seeding loop
writes `row[0]` and `row[width - 1]` for every one of the `height` rows and
therefore panics when `height > 0` and `width = 0`; the second writes
`counts[0][j]` and `counts[height - 1][j]` for every `j < width` and panics
when `width > 0` and `height = 0`.  Panics are modelled by `none`. -/
def new (width height : Nat) : Option RectangularBoard :=
  if height > 0 ∧ width = 0 then none
  else if width > 0 ∧ height = 0 then none
  else some
    { width := width
      height := height
      board := List.replicate height (List.replicate width false)
      counts := mkCounts width height }

/-- Read a cell of the marked grid (Rust `self.board[i][j]`). -/
def markedAt (b : RectangularBoard) (i j : Nat) : Bool :=
  (b.board.getD i []).getD j false

/-- Read a cell of the count grid (Rust `self.counts[i][j]`). -/
def countAt (b : RectangularBoard) (i j : Nat) : Nat :=
  (b.counts.getD i []).getD j 0

/-- `RectangularBoard::is_valid` from `src/board.rs`: note that `x` is
checked against `height` and `y` against `width`. -/
def is_valid (b : RectangularBoard) (p : Position) : Bool :=
  0 ≤ p.x && p.x < (b.height : Int) && 0 ≤ p.y && p.y < (b.width : Int)

/-- `RectangularBoard::is_marked` (the Rust method asserts `is_valid p`;
every call site checks validity first). -/
def is_marked (b : RectangularBoard) (p : Position) : Bool :=
  b.markedAt p.x.toNat p.y.toNat

/-- `RectangularBoard::is_all_marked` from `src/board.rs`: iterates the
`board` grid itself (not the `width`/`height` fields). -/
def is_all_marked (b : RectangularBoard) : Bool :=
  b.board.all (fun row => row.all (fun c => c))

/-- One `self.counts[...] += 1` update of `RectangularBoard::mark`,
guarded by the same `is_valid` check. -/
def bump (b : RectangularBoard) (p : Position) : RectangularBoard :=
  if b.is_valid p then
    { b with counts := listModify (listModify (· + 1) p.y.toNat) p.x.toNat b.counts }
  else b

/-- Set `self.board[p.x][p.y] = true` (the final write of `mark`). -/
def setMarked (b : RectangularBoard) (p : Position) : RectangularBoard :=
  { b with board := listModify (listModify (fun _ => true) p.y.toNat) p.x.toNat b.board }

/-- `RectangularBoard::mark` from `src/board.rs`: increment the counts of
the (up to four) valid cardinal neighbours — rows `x - 1` and `x + 1`, then
columns `y - 1` and `y + 1` — then mark the cell itself. -/
def mark (b : RectangularBoard) (p : Position) : RectangularBoard :=
  let b1 := bump b ⟨p.x - 1, p.y⟩
  let b2 := bump b1 ⟨p.x + 1, p.y⟩
  let b3 := bump b2 ⟨p.x, p.y - 1⟩
  let b4 := bump b3 ⟨p.x, p.y + 1⟩
  setMarked b4 p

/-- `RectangularBoard::l_board` from `src/board.rs`: an `(n*scale) x
(2*scale)` rectangle with the top-left block pre-filled by raw
`board[row][col] = true` writes that bypass `mark` (so the count grid keeps
only its border seeding). -/
def l_board (n scale : Nat) : Option RectangularBoard :=
  (new (n * scale) (2 * scale)).map (fun b =>
    { b with board :=
        (List.range (2 * scale)).map (fun i =>
          (List.range (n * scale)).map (fun j =>
            if i < scale ∧ scale ≤ j then true else b.markedAt i j)) })

/-- `RectangularBoard::t_board` from `src/board.rs`. -/
def t_board (n scale : Nat) : Option RectangularBoard :=
  (new ((2 * n + 1) * scale) (2 * scale)).map (fun b =>
    { b with board :=
        (List.range (2 * scale)).map (fun i =>
          (List.range ((2 * n + 1) * scale)).map (fun j =>
            if i < scale ∧ (j < n * scale ∨ (n + 1) * scale ≤ j) then true
            else b.markedAt i j)) })

end RectangularBoard

namespace RectangularBoard

/-- The closure `valid_and_unmarked` of `tile_fits_at_position`. -/
def validUnmarked (b : RectangularBoard) (p : Position) : Bool :=
  b.is_valid p && !(b.is_marked p)

/-- One loop of `tile_fits_at_position`: starting from `p`, step through
`ds`, requiring every visited cell to be valid and unmarked; on success
return the list of visited cells (excluding `p`). -/
def walkCheck (b : RectangularBoard) : Position → List Direction → Option (List Position)
  | _, [] => some []
  | p, d :: ds =>
    let q := move_in_direction p d
    if b.validUnmarked q then (walkCheck b q ds).map (fun l => q :: l) else none

/-- `RectangularBoard::tile_fits_at_position` from `src/board.rs`, for an
in-range `start_index` (the leading `assert!` is modelled separately by
`tile_fits_checked`).  The anchor cell is checked first; the backward loop
walks `directions[0..start_index]` in reverse via opposites, the forward
loop walks `directions[start_index..]`.  The Rust function collects the
covered cells into a `HashSet`; the model returns them as the
duplicate-free list in walk order (the set of its elements is the covered
set, and a `TilePosition`'s equality and hash depend only on that set). -/
def tile_fits_at_position (b : RectangularBoard) (tile : Tile) (position : Position)
    (start_index : Nat) : Option (List Position) :=
  if b.validUnmarked position then
    match b.walkCheck position (((tile.directions.take start_index).reverse).map
            Direction.opposite),
          b.walkCheck position (tile.directions.drop start_index) with
    | some back, some fwd => some ((position :: (back ++ fwd)).dedup)
    | _, _ => none
  else none

/-- `tile_fits_at_position` including its `assert!(start_index <=
tile.directions.len())`: the outer `none` models the panic, `some r` the
normal return. -/
def tile_fits_checked (b : RectangularBoard) (tile : Tile) (position : Position)
    (start_index : Nat) : Option (Option (List Position)) :=
  if start_index ≤ tile.directions.length then
    some (b.tile_fits_at_position tile position start_index)
  else none

/-- The scan state of `place_tile`: the pair
`(largest_position, largest_count)` (both are `None` together in the Rust
code). -/
abbrev ScanAcc := Option ((Nat × Nat) × Nat)

/-- The cell-scan loop of `RectangularBoard::place_tile`.  `coords` is the
scan order (column-major: `j` outer, `i` inner).  Returns `none` for the
early `return Vec::new()` on an unmarked count-4 cell without a single-cell
tile, otherwise `some` of the final `largest_position` accumulator. -/
def scanBestAux (b : RectangularBoard) (single : Bool) :
    List (Nat × Nat) → ScanAcc → Option ScanAcc
  | [], acc => some acc
  | (i, j) :: rest, acc =>
    if !(b.markedAt i j) then
      let count := b.countAt i j
      if !single && count = 4 then none
      else if (match acc with | none => true | some a => decide (a.2 < count)) then
        scanBestAux b single rest (some ((i, j), count))
      else scanBestAux b single rest acc
    else scanBestAux b single rest acc

/-- The column-major scan order of `place_tile` (`for j in 0..width { for i
in 0..height { ... } }`). -/
def scanCoords (b : RectangularBoard) : List (Nat × Nat) :=
  (List.range b.width).flatMap (fun j => (List.range b.height).map (fun i => (i, j)))

/-- The full scan of `place_tile`. -/
def scanBest (b : RectangularBoard) (tc : TileCollection) : Option ScanAcc :=
  scanBestAux b tc.contains_single_tile (scanCoords b) none

/-- The `fitting_tiles` accumulation of `place_tile`: every tile of the
collection at every anchor role against the chosen cell, deduplicated by
covered set (`fitting_tiles.contains(&tp)` compares `TilePosition`s, whose
equality is by covered set — hence the `toFinset` comparison). -/
def fittingTiles (b : RectangularBoard) (tc : TileCollection) (i j : Nat) :
    List (List Position) :=
  tc.tiles.foldl (fun acc tile =>
    (List.range (tile.directions.length + 1)).foldl (fun acc start_index =>
      match b.tile_fits_at_position tile ⟨(i : Int), (j : Int)⟩ start_index with
      | some tp =>
        if acc.any (fun tp2 => tp2.toFinset = tp.toFinset) then acc else acc ++ [tp]
      | none => acc) acc) []

/-- `RectangularBoard::mark_tile_at_position`: mark every covered cell.
The Rust code iterates the covered `HashSet` in unspecified order; `mark`
commutes with itself on distinct cells, so the model fixes the walk order
in which `tile_fits_at_position` discovered the cells. -/
def mark_tile_at_position (b : RectangularBoard) (covered : List Position) :
    RectangularBoard :=
  covered.foldl mark b

/-- `RectangularBoard::place_tile` from `src/board.rs`. -/
def place_tile (b : RectangularBoard) (tc : TileCollection) : List RectangularBoard :=
  match b.scanBest tc with
  | none => []
  | some acc =>
    let fitting :=
      match acc with
      | none => []
      | some ((i, j), _) => b.fittingTiles tc i j
    fitting.map (fun tp => b.mark_tile_at_position tp)

end RectangularBoard

namespace RectangularBoard

/-- The number of unmarked in-range cells of a board (used as a fuel bound
for the search loops: every placement marks at least one new cell). -/
def unmarkedCount (b : RectangularBoard) : Nat :=
  ((List.range b.height).map (fun i =>
    ((List.range b.width).filter (fun j => !(b.markedAt i j))).length)).sum

end RectangularBoard

/-- An association-list model of a Rust `HashMap<RectangularBoard,
BigUint>` (insertion order; the map contents are what matter). -/
abbrev CountMap := List (RectangularBoard × Nat)

/-- `map.entry(b).or_insert(0) += c`. -/
def alAdd (m : CountMap) (b : RectangularBoard) (c : Nat) : CountMap :=
  match m with
  | [] => [(b, c)]
  | (b2, c2) :: rest => if b2 = b then (b2, c2 + c) :: rest else (b2, c2) :: alAdd rest b c

/-- `map[&b]` with default `0` (every read the Rust code performs is of a
key that is present). -/
def alGet (m : CountMap) (b : RectangularBoard) : Nat :=
  ((m.find? (fun e => e.1 = b)).map Prod.snd).getD 0

/-- The per-level state of `Tiler::count_tilings_quick`
(`src/cli/tiler.rs`): the count map for the current level, the current
frontier (`stack`, a `HashSet`, modelled as a duplicate-free list), and the
accumulated completed-board list. -/
structure QuickState where
  counter : CountMap
  stack : List RectangularBoard
  completed : List RectangularBoard
deriving DecidableEq, Repr

/-- One iteration of the `while !stack.is_empty()` loop of
`count_tilings_quick`:
* every frontier board's successors each receive the board's current count
  once per occurrence in `place_tile`'s result (the per-board
  `count_updates` entry updates), merged over all frontier boards into a
  fresh next-level count map;
* the next frontier is the set of incomplete successors;
* completed successors are appended to the completed list (the Rust code
  pushes them in nondeterministic parallel order, and likewise merges the
  per-board results in nondeterministic order; all completed boards
  reachable from one initial board are equal as values and the merged map
  contents are order-independent, so the model fixes the frontier-list
  order). -/
def quickStep (tc : TileCollection) (st : QuickState) : QuickState where
  counter :=
    (st.stack.map (fun b => (alGet st.counter b, b.place_tile tc))).foldl
      (fun m h => h.2.foldl (fun m child => alAdd m child h.1) m) []
  stack :=
    (st.stack.flatMap (fun b =>
      (b.place_tile tc).filter (fun c => !c.is_all_marked))).dedup
  completed := st.completed ++
    st.stack.flatMap (fun b =>
      (b.place_tile tc).filter (fun c => c.is_all_marked))

/-- The loop of `count_tilings_quick`, with explicit fuel.  The Rust loop
runs until the frontier is empty; `unmarkedCount` of the initial board
bounds the number of levels (each level marks at least one more cell on
every surviving board), so the fuel used below never runs out. -/
def quickLoop (tc : TileCollection) : Nat → QuickState → QuickState
  | 0, st => st
  | fuel + 1, st =>
    if st.stack.isEmpty then st else quickLoop tc fuel (quickStep tc st)

/-- The initial state of `count_tilings_quick`: counter `{initial ↦ 1}`,
frontier `{initial}`, no completed boards. -/
def quickInit (initial_board : RectangularBoard) : QuickState where
  counter := [(initial_board, 1)]
  stack := [initial_board]
  completed := []

/-- `Tiler::count_tilings_quick` from `src/cli/tiler.rs`: run the level
loop, then look up the last recorded completed board in the final level's
counter (`counter.read().unwrap()[board]`); with no completed board the
count is zero. -/
def count_tilings_quick (initial_board : RectangularBoard) (tc : TileCollection) : Nat :=
  let st := quickLoop tc (initial_board.unmarkedCount + 1) (quickInit initial_board)
  match st.completed.getLast? with
  | some board => alGet st.counter board
  | none => 0

namespace RectangularBoard

/-- The set of unmarked in-range cells of a board, as positions. -/
def unmarkedCells (b : RectangularBoard) : Finset Position :=
  ((Finset.range b.height) ×ˢ (Finset.range b.width)).filter
    (fun ij => !(b.markedAt ij.1 ij.2)) |>.image
    (fun ij => ⟨(ij.1 : Int), (ij.2 : Int)⟩)

/-- All single-placement covered sets available on a board: every tile of
the collection, anchored at every in-range cell, in every anchor role.
(Any successful fit anchors at a valid cell, so ranging anchors over the
grid is exhaustive.) -/
def placements (b : RectangularBoard) (tc : TileCollection) : List (Finset Position) :=
  (((List.range b.height).flatMap (fun i =>
    (List.range b.width).flatMap (fun j =>
      tc.tiles.flatMap (fun tile =>
        (List.range (tile.directions.length + 1)).filterMap (fun start_index =>
          b.tile_fits_at_position tile ⟨(i : Int), (j : Int)⟩ start_index))))).map
    List.toFinset).dedup

/-- Specification-side notion of a tiling (claim C1): a set of
non-overlapping tile placements that exactly covers the unmarked cells of
the board.  "Distinct maximal sequences of non-overlapping placements that
exactly cover the board" are counted up to placement order (the claim's own
example — one tiling of a 2x2 board by the single-cell tile — forces the
order-insensitive reading), i.e. as sets of placements. -/
def tilings (b : RectangularBoard) (tc : TileCollection) :
    Finset (Finset (Finset Position)) :=
  (placements b tc).toFinset.powerset.filter (fun S =>
    (∀ C ∈ S, ∀ D ∈ S, C ≠ D → Disjoint C D) ∧
      S.sup id = b.unmarkedCells)

/-- The specification-side tiling count of claim C1. -/
def specCount (b : RectangularBoard) (tc : TileCollection) : Nat :=
  (b.tilings tc).card

end RectangularBoard

/-- `BoardGraph` from `src/graph.rs`.  `nodes_arena_index` always equals
`nodes_arena.len()` (it is incremented exactly when a node is pushed), so
it is represented by the list length.  The edge maps are modelled as total
functions into duplicate-free lists: a key that is absent from the Rust
`HashMap` corresponds to the empty list (the Rust code inserts a nonempty
set the moment a key appears, and treats an absent key as having no
edges), and the `HashSet` values are duplicate-free lists whose order is
immaterial. -/
structure BoardGraph where
  nodes_arena : List RectangularBoard
  edges : List (Nat × List Nat)
  rev_edges : List (Nat × List Nat)
  complete_indices : List Nat
deriving DecidableEq, Repr

/-- `map.entry(s).or_insert_with(HashSet::new).insert(t)` on an
association-list model of `HashMap<usize, HashSet<usize>>`. -/
def edgeInsert (m : List (Nat × List Nat)) (s t : Nat) : List (Nat × List Nat) :=
  match m with
  | [] => [(s, [t])]
  | (k, v) :: rest => if k = s then (k, v.insert t) :: rest else (k, v) :: edgeInsert rest s t

/-- Lookup in the association-list edge map; an absent key has no edges. -/
def edgeGet (m : List (Nat × List Nat)) (i : Nat) : List Nat :=
  ((m.find? (fun e => e.1 = i)).map Prod.snd).getD []

namespace BoardGraph

/-- `BoardGraph::new`. -/
def new : BoardGraph where
  nodes_arena := []
  edges := []
  rev_edges := []
  complete_indices := []

/-- `BoardGraph::get_complete_index`: returns an element of the
`complete_indices` `HashSet` if one exists.  The Rust `HashSet<usize>`
iteration order is unspecified; the model fixes the minimum index. -/
def get_complete_index (g : BoardGraph) : Option Nat :=
  g.complete_indices.min?

/-- `BoardGraph::mark_node_as_complete` (`HashSet::insert`). -/
def mark_node_as_complete (g : BoardGraph) (i : Nat) : BoardGraph :=
  { g with complete_indices := g.complete_indices.insert i }

/-- `BoardGraph::get_edges` (association-list model, see above). -/
def get_edges (g : BoardGraph) (i : Nat) : List Nat := edgeGet g.edges i

/-- `BoardGraph::get_rev_edges`. -/
def get_rev_edges (g : BoardGraph) (i : Nat) : List Nat := edgeGet g.rev_edges i

/-- `BoardGraph::get_node`. -/
def get_node (g : BoardGraph) (i : Nat) : Option RectangularBoard :=
  g.nodes_arena.get? i

/-- `BoardGraph::add_node`: push the board and return its index. -/
def add_node (g : BoardGraph) (v : RectangularBoard) : BoardGraph × Nat :=
  ({ g with nodes_arena := g.nodes_arena ++ [v] }, g.nodes_arena.length)

/-- `BoardGraph::add_edge` (the Rust `assert!` that both endpoints exist
holds at every call site of the translated code). -/
def add_edge (g : BoardGraph) (s t : Nat) : BoardGraph :=
  { g with
    edges := edgeInsert g.edges s t
    rev_edges := edgeInsert g.rev_edges t s }

end BoardGraph

/-- The merge of one child board inside `Tiler::generate_graph`
(`src/cli/tiler.rs`): look the board up in this level's `board_map`,
adding a fresh node if absent; add the parent edge; completed children are
marked complete, the rest are pushed onto the next level's stack. -/
def genMergeChild (board_index : Nat)
    (acc : BoardGraph × List (RectangularBoard × Nat) × List Nat)
    (board : RectangularBoard) :
    BoardGraph × List (RectangularBoard × Nat) × List Nat :=
  let (g, board_map, next_iteration) := acc
  let complete := board.is_all_marked
  let found := (board_map.find? (fun e => e.1 = board)).map Prod.snd
  let (g, board_map, child_index) :=
    match found with
    | some j => (g, board_map, j)
    | none =>
      let (g, idx) := g.add_node board
      (g, board_map ++ [(board, idx)], idx)
  let g := g.add_edge board_index child_index
  if complete then (g.mark_node_as_complete child_index, board_map, next_iteration)
  else (g, board_map, next_iteration ++ [child_index])

/-- One `while` iteration of `Tiler::generate_graph`: expand every stack
index against the pre-iteration graph (the parallel map phase collects all
`(board_index, child_boards)` pairs first), then merge sequentially in
stack order with a per-iteration `board_map`. -/
def genStep (tc : TileCollection) (g : BoardGraph) (stack : List Nat) :
    BoardGraph × List Nat :=
  let pairs := stack.map (fun board_index =>
    (board_index,
      match g.get_node board_index with
      | some board => board.place_tile tc
      | none => []))
  let res := pairs.foldl (fun (acc : BoardGraph × List (RectangularBoard × Nat) × List Nat) p =>
    p.2.foldl (genMergeChild p.1) acc) (g, [], [])
  (res.1, res.2.2)

/-- The `generate_graph` loop with explicit fuel (the level count is
bounded by `unmarkedCount` of the initial board, exactly as for
`count_tilings_quick`). -/
def genLoop (tc : TileCollection) : Nat → BoardGraph → List Nat → BoardGraph
  | 0, g, _ => g
  | fuel + 1, g, stack =>
    if stack.isEmpty then g
    else
      let r := genStep tc g stack
      genLoop tc fuel r.1 r.2

/-- `Tiler::generate_graph` from `src/cli/tiler.rs`: seed the graph with
the initial board as node `0` and run the level loop from stack `[0]`. -/
def generate_graph (initial_board : RectangularBoard) (tc : TileCollection) : BoardGraph :=
  genLoop tc (initial_board.unmarkedCount + 1)
    (BoardGraph.new.add_node initial_board).1 [0]

/-- Association-list model of the `count_map : HashMap<usize, BigUint>` of
`count_tilings_from_graph`: the `entry(..).or_insert(0) += c` update. -/
def natAlAdd (m : List (Nat × Nat)) (i c : Nat) : List (Nat × Nat) :=
  match m with
  | [] => [(i, c)]
  | (k, v) :: rest => if k = i then (k, v + c) :: rest else (k, v) :: natAlAdd rest i c

/-- Lookup in the association-list count map, defaulting to `0` (the final
`count_map.remove(..)` read of the Rust code also yields `0` for an absent
key). -/
def natAlGet (m : List (Nat × Nat)) (i : Nat) : Nat :=
  ((m.find? (fun e => e.1 = i)).map Prod.snd).getD 0

/-- One `while` iteration of `Tiler::count_tilings_from_graph`: propagate
every stack index's accumulated count along its forward edges (the count
is read once before the inner edge loop), collecting all edge targets as
the next stack (a `HashSet`, modelled as a duplicate-free list).  The Rust
code iterates the stack `HashSet` in unspecified order; in the graphs this
function is applied to, edges never leave one stack inside the same stack,
so the accumulated map does not depend on the order, which the model fixes
as the stack-list order. -/
def graphCountStep (g : BoardGraph) (st : List (Nat × Nat) × List Nat) :
    List (Nat × Nat) × List Nat :=
  st.2.foldl (fun (acc : List (Nat × Nat) × List Nat) board_index =>
    let c := natAlGet acc.1 board_index
    (g.get_edges board_index).foldl
      (fun (acc : List (Nat × Nat) × List Nat) edge =>
        (natAlAdd acc.1 edge c, acc.2.insert edge))
      acc)
    (st.1, [])

/-- The loop of `count_tilings_from_graph`, with fuel bounded by the node
count (every hop strictly increases the marked-cell count of the node's
board, so level chains are shorter than the arena). -/
def graphCountLoop (g : BoardGraph) : Nat → List (Nat × Nat) × List Nat → List (Nat × Nat) :=
  fun fuel st =>
    match fuel with
    | 0 => st.1
    | fuel + 1 => if st.2.isEmpty then st.1 else graphCountLoop g fuel (graphCountStep g st)

/-- `Tiler::count_tilings_from_graph` from `src/cli/tiler.rs`: if the graph
records no complete index the count is zero; otherwise seed `{0 ↦ 1}`,
propagate level-synchronously from node `0`, and read off the complete
index (`count_map.remove` followed by the `if let` returns `0` if the key
was never written). -/
def count_tilings_from_graph (g : BoardGraph) : Nat :=
  match g.get_complete_index with
  | none => 0
  | some complete_board_index =>
    natAlGet
      (graphCountLoop g (g.nodes_arena.length + 1) ([(0, 1)], [0]))
      complete_board_index

/-- `Tiler::count_tilings` in graph mode: the composite
`generate_graph`-then-`count_tilings_from_graph` pipeline of
`src/cli/tiler.rs` (what `count_tilings` runs when `self.graph` has been
built). -/
def count_tilings_graph (initial_board : RectangularBoard) (tc : TileCollection) : Nat :=
  count_tilings_from_graph (generate_graph initial_board tc)

/-! ## Specification-side relations and invariants -/

/-- The cells visited by a walk from `p` through `ds` (excluding `p`),
mirroring `walkCheck` without the board checks. -/
def walkList (p : Position) : List Direction → List Position
  | [] => []
  | d :: ds => move_in_direction p d :: walkList (move_in_direction p d) ds

/-- The displacement of the chain cell at link index `i` relative to the
chain cell at link index `0`: the sum of the first `i` direction vectors. -/
def chainOffset (t : Tile) (i : Nat) : Position :=
  ((t.directions.take i).map Direction.vec).foldl Position.add ⟨0, 0⟩

/-- The cell occupied by link `i` of tile `t` when link `start_index` is
anchored at `p`. -/
def chainCell (t : Tile) (start_index : Nat) (p : Position) (i : Nat) : Position :=
  p.add ((chainOffset t i).sub (chainOffset t start_index))

/-- All cells of the chain of `t` anchored at `p` by link `start_index`. -/
def chainCells (t : Tile) (start_index : Nat) (p : Position) : List Position :=
  (List.range (t.directions.length + 1)).map (chainCell t start_index p)

/-- The number of distinct cells covered by a tile, independent of
anchoring (chains may revisit cells, so this can be smaller than the
number of links). -/
def Tile.coveredSize (t : Tile) : Nat :=
  (chainCells t 0 ⟨0, 0⟩).toFinset.card

/-- The total displacement of a list of directions. -/
def dirSum (ds : List Direction) : Position :=
  (ds.map Direction.vec).foldl Position.add ⟨0, 0⟩

/-- `q` is one of the four cardinal neighbours of `p`. -/
def Position.cardNbr (p q : Position) : Prop :=
  (q.x = p.x - 1 ∧ q.y = p.y) ∨ (q.x = p.x + 1 ∧ q.y = p.y) ∨
    (q.x = p.x ∧ q.y = p.y - 1) ∨ (q.x = p.x ∧ q.y = p.y + 1)

instance (p q : Position) : Decidable (p.cardNbr q) := by
  unfold Position.cardNbr; infer_instance

/-- Well-formedness of a board value: the two grids have exactly the
dimensions recorded in the `width`/`height` fields.  Every board built by
the constructors has this property, and placements preserve it. -/
def RectangularBoard.WF (b : RectangularBoard) : Prop :=
  b.board.length = b.height ∧ (∀ row ∈ b.board, row.length = b.width) ∧
  b.counts.length = b.height ∧ (∀ row ∈ b.counts, row.length = b.width)

/-- The number of blocked cardinal sides of cell `(i, j)`: sides whose
neighbour is off-grid or marked. -/
def RectangularBoard.blockedCount (b : RectangularBoard) (i j : Nat) : Nat :=
  (if b.validUnmarked (move_in_direction ⟨(i : Int), (j : Int)⟩ Direction.Up) then 0 else 1) +
  (if b.validUnmarked (move_in_direction ⟨(i : Int), (j : Int)⟩ Direction.Down) then 0 else 1) +
  (if b.validUnmarked (move_in_direction ⟨(i : Int), (j : Int)⟩ Direction.Left) then 0 else 1) +
  (if b.validUnmarked (move_in_direction ⟨(i : Int), (j : Int)⟩ Direction.Right) then 0 else 1)

/-- Soundness of the constraint-count grid: no unmarked cell's count
exceeds its number of blocked cardinal sides (so a count of 4 really means
the cell is unreachable by any tile entering through a cardinal side).
This holds for all boards produced by the constructors and is preserved by
marking. -/
def RectangularBoard.CountsOK (b : RectangularBoard) : Prop :=
  ∀ i < b.height, ∀ j < b.width, b.countAt i j ≤ b.blockedCount i j

/-- Every tile of the collection uses only cardinal (non-diagonal) steps. -/
def TileCollection.AllCardinal (tc : TileCollection) : Prop :=
  ∀ t ∈ tc.tiles, ∀ d ∈ t.directions, d.isCardinal = true

/-- Every tile of the collection covers exactly `s` cells. -/
def TileCollection.UniformSize (tc : TileCollection) (s : Nat) : Prop :=
  ∀ t ∈ tc.tiles, t.coveredSize = s

/-- The collection is closed under the three symmetry operations. -/
def TileCollection.SymClosed (tc : TileCollection) : Prop :=
  ∀ t ∈ tc.tiles, t.rotate ∈ tc.tiles ∧
    t.reflect Axis.Horizontal ∈ tc.tiles ∧ t.reflect Axis.Vertical ∈ tc.tiles

/-- One valid tile placement (claim C3's "any collection member, at any
position and anchor role"): some tile of the collection fits at some
anchor and role, and the later board is the earlier board with exactly the
covered cells marked. -/
def PlaceStep (tc : TileCollection) (b b2 : RectangularBoard) : Prop :=
  ∃ t ∈ tc.tiles, ∃ p : Position, ∃ k : Nat, ∃ cov : List Position,
    b.tile_fits_at_position t p k = some cov ∧ b2 = b.mark_tile_at_position cov

/-- `b2` is reachable from `b` by a (possibly empty) sequence of valid
tile placements. -/
def Reaches (tc : TileCollection) (b b2 : RectangularBoard) : Prop :=
  Relation.ReflTransGen (PlaceStep tc) b b2

/-! ## Symmetry orbits (`From<Tile> for TileCollection`) -/

/-- One pass of the fixed-point loop of `symmetry_orbit`
(`src/tile.rs`): extend the set with the rotation and the two reflections
of every member. -/
def orbitStep (S : Finset Tile) : Finset Tile :=
  ((S ∪ S.image Tile.rotate) ∪ S.image (fun t => t.reflect Axis.Horizontal)) ∪
    S.image (fun t => t.reflect Axis.Vertical)

/-- The `symmetry_orbit` fixed-point loop of `From<Tile> for
TileCollection` (`src/tile.rs`).  The Rust loop repeats `orbitStep` until
the set stops growing; the set always stays inside the dihedral orbit of
the seed, which has at most 8 elements, so 8 passes always reach the fixed
point (proved below). -/
def symmetry_orbit (tile : Tile) : Finset Tile :=
  orbitStep^[8] {tile}

/-- The fixed-point pass of `symmetry_orbit` on a duplicate-free list
(the same extension as `orbitStep`, with a deterministic order). -/
def orbitListStep (l : List Tile) : List Tile :=
  (((l ++ l.map Tile.rotate) ++ l.map (fun t => t.reflect Axis.Horizontal)) ++
    l.map (fun t => t.reflect Axis.Vertical)).dedup

/-- `TileCollection::from(tile)`: the symmetry orbit as a collection.  The
Rust code drains the orbit `HashSet` into the tiles vector in unspecified
order; only the set of members and the `contains_single_tile` flag are
observable, so the model fixes a deterministic insertion order whose
element set equals `symmetry_orbit tile` (proved below). -/
def tileCollectionFrom (tile : Tile) : TileCollection :=
  ⟨orbitListStep^[8] [tile]⟩

/-! ## Single-tiling sampler (`Tiler::get_single_tiling`) -/

/-- The body of `get_single_tiling`'s `while let Some(tvec) = stack.pop()`
loop, with explicit fuel.  The Rust stack is a `Vec` popped from the back;
the model keeps the top at the head.  Each popped partial tiling `tvec` is
extended by every successor of its last board; completed extensions are
collected, the rest are pushed.  After processing one element the loop
stops if `limit` completed tilings have been found.  Fuel exhaustion (which
the Rust loop does not have) returns the tilings collected so far; the
safety claim C5 is proved for every fuel value. -/
def singleLoop (tc : TileCollection) (limit : Nat) :
    Nat → List (List RectangularBoard) → List (List RectangularBoard) →
    List (List RectangularBoard)
  | 0, _, completed => completed
  | _ + 1, [], completed => completed
  | fuel + 1, tvec :: rest, completed =>
    match tvec.getLast? with
    | none => singleLoop tc limit fuel rest completed
    | some current_board =>
      let fitting_tiles := current_board.place_tile tc
      let newComplete := (fitting_tiles.filter (fun b => b.is_all_marked)).map
        (fun b => tvec ++ [b])
      let newPartial := (fitting_tiles.filter (fun b => !b.is_all_marked)).map
        (fun b => tvec ++ [b])
      let completed2 := completed ++ newComplete
      if completed2.length ≥ limit then completed2
      else singleLoop tc limit fuel (newPartial.reverse ++ rest) completed2

/-- `Tiler::get_single_tiling` from `src/cli/tiler.rs`.  The Rust code
selects a uniformly random element of the completed tilings found; the
model takes the random draw as the argument `r` (reduced modulo the number
of candidates). -/
def get_single_tiling (initial_board : RectangularBoard) (tc : TileCollection)
    (fuel r limit : Nat) : Option (List RectangularBoard) :=
  let completed_tilings := singleLoop tc limit fuel [[initial_board]] []
  if completed_tilings.isEmpty then none
  else completed_tilings.get? (r % completed_tilings.length)

/-- `a`-fold clockwise rotation of a tile. -/
def rotIter (a : Nat) (t : Tile) : Tile := Tile.rotate^[a] t

/-- The dihedral group of order 8 acts on tiles: `r i` rotates `i` times,
`sr i` rotates `i` times and then reflects about the vertical axis. -/
instance : SMul (DihedralGroup 4) Tile where
  smul g t :=
    match g with
    | DihedralGroup.r i => rotIter i.val t
    | DihedralGroup.sr i => (rotIter i.val t).reflect Axis.Vertical

/-- The `SMul` above is a group action: the three generators used by
`symmetry_orbit` satisfy the dihedral relations. -/
instance : MulAction (DihedralGroup 4) Tile where
  one_smul t := by
    show rotIter (0 : ZMod 4).val t = t
    rfl
  mul_smul g h t := by
    have hmap : ∀ (a : Nat) (ds : List Direction),
        Tile.rotate^[a] ⟨ds⟩ = ⟨ds.map (Direction.rotate^[a])⟩ := by
      intro a
      induction a with
      | zero => intro ds; simp
      | succ a ih =>
        intro ds
        rw [Function.iterate_succ_apply]
        show Tile.rotate^[a] ⟨ds.map Direction.rotate⟩ = _
        rw [ih, List.map_map, Function.iterate_succ]
    have key4 : ∀ x : Tile, rotIter 4 x = x := by
      intro x
      cases x with
      | mk ds =>
        show Tile.rotate^[4] ⟨ds⟩ = ⟨ds⟩
        rw [hmap]
        have h4 : ∀ d : Direction, Direction.rotate^[4] d = d := by decide
        rw [List.map_congr_left (fun d _ => h4 d)]
        simp
    have hadd : ∀ (m n2 : Nat) (x : Tile), rotIter (m + n2) x = rotIter m (rotIter n2 x) := by
      intro m n2 x
      exact Function.iterate_add_apply Tile.rotate m n2 x
    have hmod : ∀ (a : Nat) (x : Tile), rotIter a x = rotIter (a % 4) x := by
      intro a
      induction a using Nat.strong_induction_on with
      | _ a ih =>
        intro x
        by_cases hlt : a < 4
        · rw [Nat.mod_eq_of_lt hlt]
        · have ha : a = (a - 4) + 4 := by omega
          rw [ha, hadd, key4, ih (a - 4) (by omega)]
          rw [show ((a - 4) + 4) % 4 = (a - 4) % 4 from Nat.add_mod_right _ _]
    have hconj : ∀ x : Tile,
        Tile.rotate (x.reflect Axis.Vertical) =
          (rotIter 3 x).reflect Axis.Vertical := by
      intro x
      cases x with
      | mk ds =>
        show Tile.mk ((ds.map _).map _) =
          Tile.reflect (Tile.rotate^[3] ⟨ds⟩) Axis.Vertical
        rw [hmap]
        show Tile.mk ((ds.map _).map _) = ⟨(ds.map _).map _⟩
        rw [List.map_map, List.map_map]
        have hd : ∀ d : Direction,
            (Direction.rotate ∘ fun d => d.reflect Axis.Vertical) d =
              ((fun d => d.reflect Axis.Vertical) ∘ Direction.rotate^[3]) d := by decide
        rw [List.map_congr_left (fun d _ => hd d)]
    have hKS : ∀ (a : Nat) (x : Tile),
        rotIter a (x.reflect Axis.Vertical) =
          (rotIter (3 * a) x).reflect Axis.Vertical := by
      intro a
      induction a with
      | zero => intro x; rfl
      | succ a ih =>
        intro x
        have h1 : rotIter (a + 1) (x.reflect Axis.Vertical) =
            Tile.rotate (rotIter a (x.reflect Axis.Vertical)) :=
          Function.iterate_succ_apply' Tile.rotate a _
        rw [h1, ih, hconj, ← hadd]
        rw [show 3 + 3 * a = 3 * (a + 1) by omega]
    have hinv : ∀ x : Tile,
        (x.reflect Axis.Vertical).reflect Axis.Vertical = x := by
      intro x
      cases x with
      | mk ds =>
        show Tile.mk ((ds.map _).map _) = ⟨ds⟩
        rw [List.map_map]
        have hd : ∀ d : Direction,
            ((fun d => Direction.reflect d Axis.Vertical) ∘
              fun d => Direction.reflect d Axis.Vertical) d = d := by decide
        rw [List.map_congr_left (fun d _ => hd d)]
        simp
    cases g with
    | r i =>
      cases h with
      | r j =>
        show rotIter ((i + j).val) t = rotIter i.val (rotIter j.val t)
        rw [← hadd, hmod (i.val + j.val)]
        rw [show (i + j).val = (i.val + j.val) % 4 from ZMod.val_add i j]
      | sr j =>
        show (rotIter ((j - i).val) t).reflect Axis.Vertical =
          rotIter i.val ((rotIter j.val t).reflect Axis.Vertical)
        rw [hKS, ← hadd]
        have hv : ∀ i2 j2 : ZMod 4, (j2 - i2).val = (3 * i2.val + j2.val) % 4 := by decide
        rw [hv, ← hmod]
    | sr i =>
      cases h with
      | r j =>
        show (rotIter ((i + j).val) t).reflect Axis.Vertical =
          (rotIter i.val (rotIter j.val t)).reflect Axis.Vertical
        rw [← hadd]
        rw [show (i + j).val = (i.val + j.val) % 4 from ZMod.val_add i j, ← hmod]
      | sr j =>
        show rotIter ((j - i).val) t =
          (rotIter i.val ((rotIter j.val t).reflect Axis.Vertical)).reflect Axis.Vertical
        rw [hKS, hinv, ← hadd]
        have hv : ∀ i2 j2 : ZMod 4, (j2 - i2).val = (3 * i2.val + j2.val) % 4 := by decide
        rw [hv, ← hmod]

/-- One indicator of `newMarkedNbrs`: `1` when the `d`-neighbour of
`(i, j)` is a valid cell marked in `b` but not in the reference board
`b0`. -/
def newNbr (b0 b : RectangularBoard) (i j : Nat) (d : Direction) : Nat :=
  if (let q := move_in_direction ⟨(i : Int), (j : Int)⟩ d
      b.is_valid q && b.is_marked q && !(b0.is_marked q)) then 1 else 0

/-- The number of valid cardinal neighbours of `(i, j)` that are marked in
`b` but were not yet marked in the reference board `b0`. -/
def newMarkedNbrs (b0 b : RectangularBoard) (i j : Nat) : Nat :=
  newNbr b0 b i j Direction.Up + newNbr b0 b i j Direction.Down +
    newNbr b0 b i j Direction.Left + newNbr b0 b i j Direction.Right

/-- `b` is a board derived from the run's initial board `b0` by marking
cells: the dimensions agree, marks only grow, and every count is the
initial count plus one per newly marked cardinal neighbour.  This is the
invariant that makes the full-structure equality of `RectangularBoard`
behave, within one run, as equality of marked grids (the counts are a
function of the marked grid given `b0`). -/
def Det (b0 b : RectangularBoard) : Prop :=
  b.width = b0.width ∧ b.height = b0.height ∧
  (∀ i < b.height, ∀ j < b.width, b0.markedAt i j = true → b.markedAt i j = true) ∧
  (∀ i < b.height, ∀ j < b.width, b.countAt i j = b0.countAt i j + newMarkedNbrs b0 b i j)

instance (b : RectangularBoard) : Decidable b.WF := by
  unfold RectangularBoard.WF; infer_instance

instance (b : RectangularBoard) : Decidable b.CountsOK := by
  unfold RectangularBoard.CountsOK; infer_instance

instance (tc : TileCollection) : Decidable tc.AllCardinal := by
  unfold TileCollection.AllCardinal; infer_instance

instance (tc : TileCollection) (s : Nat) : Decidable (tc.UniformSize s) := by
  unfold TileCollection.UniformSize; infer_instance

instance (tc : TileCollection) : Decidable tc.SymClosed := by
  unfold TileCollection.SymClosed; infer_instance

instance (b0 b : RectangularBoard) : Decidable (Det b0 b) := by
  unfold Det; infer_instance

/-! ## Concrete instances used by the refutations -/

/-- The 2-wide, 1-high rectangle (`RectangularBoard::new(2, 1)`). -/
def cexBoard21 : RectangularBoard :=
  ⟨2, 1, [[false, false]], [[1, 1]]⟩

/-- The 3-wide, 1-high rectangle (`RectangularBoard::new(3, 1)`). -/
def cexBoard31 : RectangularBoard :=
  ⟨3, 1, [[false, false, false]], [[1, 1, 1]]⟩

/-- The symmetry-closed collection of the single-cell tile together with
the four one-step tiles (the orbit closure of a mixed-size seed set; it is
closed under `rotate` and both reflections). -/
def cexMixedTC : TileCollection :=
  ⟨[Tile.box_tile, ⟨[Direction.Left]⟩, ⟨[Direction.Right]⟩,
    ⟨[Direction.Up]⟩, ⟨[Direction.Down]⟩]⟩

/-- `cexBoard31` after marking cell `(0,0)`. -/
def cexN1 : RectangularBoard := ⟨3, 1, [[true, false, false]], [[1, 2, 1]]⟩

/-- `cexBoard31` after marking cells `(0,0)` and `(0,1)`. -/
def cexN2 : RectangularBoard := ⟨3, 1, [[true, true, false]], [[2, 2, 2]]⟩

/-- The fully marked `3 x 1` board. -/
def cexN3 : RectangularBoard := ⟨3, 1, [[true, true, true]], [[2, 3, 2]]⟩

/-- The quick-count level states of `count_tilings_quick(cexBoard31,
cexMixedTC)` (one per loop iteration; computed by the step lemmas below). -/
def cexQ1 : QuickState := ⟨[(cexN1, 1), (cexN2, 1)], [cexN1, cexN2], []⟩

/-- Level-2 quick state of the `3 x 1` mixed run. -/
def cexQ2 : QuickState := ⟨[(cexN2, 1), (cexN3, 2)], [cexN2], [cexN3, cexN3]⟩

/-- Level-3 (final) quick state of the `3 x 1` mixed run. -/
def cexQ3 : QuickState := ⟨[(cexN3, 1)], [], [cexN3, cexN3, cexN3]⟩

/-- The graph seeded with `cexBoard31` as node `0`. -/
def cexG0 : BoardGraph := ⟨[cexBoard31], [], [], []⟩

/-- The graph after the first `generate_graph` iteration of the `3 x 1`
mixed run. -/
def cexG1 : BoardGraph :=
  ⟨[cexBoard31, cexN1, cexN2], [(0, [2, 1])], [(1, [0]), (2, [0])], []⟩

/-- The graph after the second iteration: note that node `3` duplicates
node `2`'s board value (the per-level `board_map` cannot see nodes of
earlier levels) and that node `4` (a complete board) collects two parents. -/
def cexG2 : BoardGraph :=
  ⟨[cexBoard31, cexN1, cexN2, cexN2, cexN3],
    [(0, [2, 1]), (1, [4, 3]), (2, [4])],
    [(1, [0]), (2, [0]), (3, [1]), (4, [2, 1])], [4]⟩

/-- The final graph of the `3 x 1` mixed run: two distinct complete node
indices (`4` and `5`) for the same complete board value. -/
def cexG3 : BoardGraph :=
  ⟨[cexBoard31, cexN1, cexN2, cexN2, cexN3, cexN3],
    [(0, [2, 1]), (1, [4, 3]), (2, [4]), (3, [5])],
    [(1, [0]), (2, [0]), (3, [1]), (4, [2, 1]), (5, [3])], [5, 4]⟩

/-- The board used by the claim C3 refutation: a `4 x 2` rectangle with
cells `(0,0)`, `(0,2)` and `(1,1)` marked through `mark` (so its counts
are consistent), leaving cell `(0,1)` with count 4. -/
def cexBoardC3 : RectangularBoard :=
  ((⟨4, 2, [[false, false, false, false], [false, false, false, false]],
      [[1, 1, 1, 1], [1, 1, 1, 1]]⟩ : RectangularBoard).mark
    ⟨0, 0⟩ |>.mark ⟨0, 2⟩ |>.mark ⟨1, 1⟩)

/-- The collection used by the claim C3 refutation: a diagonal domino and
an L-triomino; no single-cell tile. -/
def cexTCC3 : TileCollection :=
  ⟨[⟨[Direction.DownLeft]⟩, ⟨[Direction.Right, Direction.Up]⟩]⟩

/-- The first intermediate board of the C3 refutation's completing
sequence: `cexBoardC3` plus the diagonal domino covering `(0,1)` and
`(1,0)`. -/
def cexBoardC3b : RectangularBoard :=
  cexBoardC3.mark_tile_at_position [⟨0, 1⟩, ⟨1, 0⟩]

/-- The final (fully marked) board of the C3 refutation's sequence:
`cexBoardC3b` plus the L-triomino covering `(1,2)`, `(1,3)`, `(0,3)`. -/
def cexBoardC3c : RectangularBoard :=
  cexBoardC3b.mark_tile_at_position [⟨1, 2⟩, ⟨1, 3⟩, ⟨0, 3⟩]

/-- The board used by the claim C6 refutation: `l_board(2, 1)` — the
pre-fill writes `board[0][1] = true` directly, leaving the count grid at
its border seed. -/
def cexBoardL : RectangularBoard :=
  ⟨2, 2, [[false, true], [false, false]], [[1, 1], [1, 1]]⟩

/-- The comparison board for the claim C6 refutation: `new(2, 2)` with the
same cell `(0,1)` marked through `mark`, which also bumps the neighbour
counts. -/
def cexBoardM : RectangularBoard :=
  (⟨2, 2, [[false, false], [false, false]], [[1, 1], [1, 1]]⟩ : RectangularBoard).mark ⟨0, 1⟩

/-!
# Theorems

Supporting lemmas first, then one theorem per claim (with witnesses and
counterexamples where required).
-/

theorem Position.ext_xy {p q : Position} (hx : p.x = q.x) (hy : p.y = q.y) : p = q := by
  cases p; cases q; simp_all

theorem listModify_length {α : Type} (f : α → α) (n : Nat) (l : List α) :
    (listModify f n l).length = l.length := by
  induction l generalizing n with
  | nil => cases n <;> rfl
  | cons a as ih => cases n <;> simp [listModify, ih]

theorem getD_listModify {α : Type} (f : α → α) (n m : Nat) (l : List α) (d : α) :
    (listModify f n l).getD m d =
      if n = m ∧ m < l.length then f (l.getD m d) else l.getD m d := by
  induction l generalizing n m with
  | nil => cases n <;> simp [listModify]
  | cons a as ih =>
    cases n with
    | zero =>
      cases m with
      | zero => simp [listModify]
      | succ m => simp [listModify, Nat.succ_lt_succ_iff]
    | succ n =>
      cases m with
      | zero => simp [listModify]
      | succ m =>
        simp only [listModify, List.getD_cons_succ, ih, List.length_cons,
          Nat.succ_lt_succ_iff, Nat.succ_inj]

theorem getD_map_range {α : Type} (f : Nat → α) (n i : Nat) (d : α) :
    (((List.range n).map f).getD i d) = if i < n then f i else d := by
  by_cases h : i < n
  · rw [List.getD_eq_getElem _ _ (by simpa using h)]
    simp [h]
  · rw [List.getD_eq_default _ _ (by simpa using h)]
    simp [h]

theorem getD_replicate {α : Type} (n i : Nat) (c d : α) :
    ((List.replicate n c).getD i d) = if i < n then c else d := by
  by_cases h : i < n
  · rw [List.getD_eq_getElem _ _ (by simpa using h)]
    simp [h]
  · rw [List.getD_eq_default _ _ (by simpa using h)]
    simp [h]

namespace RectangularBoard

theorem new_eq_some {w h : Nat} (hw : 0 < w) (hh : 0 < h) :
    new w h = some
      { width := w, height := h,
        board := List.replicate h (List.replicate w false),
        counts := mkCounts w h } := by
  simp [new, Nat.pos_iff_ne_zero.mp hw, Nat.pos_iff_ne_zero.mp hh]

theorem countAt_new {w h : Nat} (hw : 0 < w) (hh : 0 < h) {b : RectangularBoard}
    (hb : new w h = some b) (i j : Nat) (hi : i < h) (hj : j < w) :
    b.countAt i j = if i = 0 ∨ i = h - 1 ∨ j = 0 ∨ j = w - 1 then 1 else 0 := by
  rw [new_eq_some hw hh] at hb
  cases hb
  simp only [countAt, mkCounts, getD_map_range, hi, if_true, hj]

theorem markedAt_new {w h : Nat} (hw : 0 < w) (hh : 0 < h) {b : RectangularBoard}
    (hb : new w h = some b) (i j : Nat) :
    b.markedAt i j = false := by
  rw [new_eq_some hw hh] at hb
  cases hb
  simp only [markedAt, getD_replicate]
  by_cases hi : i < h <;> by_cases hj : j < w <;> simp [hi, hj]

theorem WF_new {w h : Nat} (hw : 0 < w) (hh : 0 < h) {b : RectangularBoard}
    (hb : new w h = some b) : b.WF := by
  rw [new_eq_some hw hh] at hb
  cases hb
  refine ⟨by simp, ?_, by simp [mkCounts], ?_⟩
  · intro row hrow
    rw [List.eq_of_mem_replicate hrow]
    simp
  · intro row hrow
    simp only [mkCounts, List.mem_map, List.mem_range] at hrow
    obtain ⟨i, _, rfl⟩ := hrow
    simp

end RectangularBoard

/-- Claim C8 (corrected), counterexample: on the freshly constructed `2 x 2`
board every cell is a corner (adjacent to two board edges), yet its seeded
constraint count is `1`, not the `2` the claim asserts (the two seeding
loops assign `1`; they do not accumulate one per adjacent edge). -/
theorem C8_counts_seed_cex :
    (RectangularBoard.new 2 2).map (fun b => b.countAt 0 0) = some 1 ∧
      (1 : Nat) ≠ 2 := by
  exact ⟨rfl, by decide⟩

/-- Claim C8 (corrected, amended): after `RectangularBoard::new(width,
height)` with positive dimensions, every border cell's constraint count is
exactly `1` (corners included — NOT `1` per adjacent off-grid edge) and
every interior cell's is `0`; all cells start unmarked. -/
theorem C8_counts_seed_amended (w h : Nat) (hw : 0 < w) (hh : 0 < h)
    (b : RectangularBoard) (hb : RectangularBoard.new w h = some b) :
    ∀ i, i < h → ∀ j, j < w →
      b.markedAt i j = false ∧
      b.countAt i j = (if i = 0 ∨ i = h - 1 ∨ j = 0 ∨ j = w - 1 then 1 else 0) := by
  intro i hi j hj
  exact ⟨RectangularBoard.markedAt_new hw hh hb i j,
    RectangularBoard.countAt_new hw hh hb i j hi hj⟩

/-- Witness for `C8_counts_seed_amended` at the `3 x 2` board: the border
cell `(0,1)` seeds at `1` and starts unmarked. -/
theorem C8_counts_seed_witness :
    RectangularBoard.new 3 2 = some
      ⟨3, 2, [[false, false, false], [false, false, false]],
        [[1, 1, 1], [1, 1, 1]]⟩ ∧
    (⟨3, 2, [[false, false, false], [false, false, false]],
        [[1, 1, 1], [1, 1, 1]]⟩ : RectangularBoard).markedAt 0 1 = false ∧
    (⟨3, 2, [[false, false, false], [false, false, false]],
        [[1, 1, 1], [1, 1, 1]]⟩ : RectangularBoard).countAt 0 1 = 1 := by
  have h := C8_counts_seed_amended 3 2 (by decide) (by decide)
    ⟨3, 2, [[false, false, false], [false, false, false]], [[1, 1, 1], [1, 1, 1]]⟩
    (by decide) 0 (by decide) 1 (by decide)
  exact ⟨by decide, h.1, by simpa using h.2⟩

/-- Claim C9 (confirmed): requesting a zero-length shape where the length
must be at least 1 panics (`l_tile`, `t_tile`: modelled by `none`), and
`tile_fits_at_position` panics when the anchor-role index exceeds the
tile's direction count; a panic (outer `none` of `tile_fits_checked`) is
distinct from a normal no-match result (`some none`). -/
theorem C9_contract_violations :
    Tile.l_tile 0 = none ∧ Tile.t_tile 0 = none ∧
    (∀ (b : RectangularBoard) (t : Tile) (p : Position) (k : Nat),
      t.directions.length < k → b.tile_fits_checked t p k = none) ∧
    (∀ (b : RectangularBoard) (t : Tile) (p : Position) (k : Nat),
      b.tile_fits_checked t p k ≠ some (b.tile_fits_at_position t p k) →
        b.tile_fits_checked t p k = none) := by
  refine ⟨rfl, rfl, ?_, ?_⟩
  · intro b t p k hk
    simp [RectangularBoard.tile_fits_checked, Nat.not_le.mpr hk]
  · intro b t p k h
    by_cases hle : k ≤ t.directions.length
    · exact absurd (by simp [RectangularBoard.tile_fits_checked, hle]) h
    · simp [RectangularBoard.tile_fits_checked, hle]

/-- Witness for `C9_contract_violations`: the box tile has no direction at
index 1, so role index `1` trips the assertion on a concrete board. -/
theorem C9_contract_violations_witness :
    Tile.l_tile 0 = none ∧
      cexBoard21.tile_fits_checked Tile.box_tile ⟨0, 0⟩ 1 = none := by
  exact ⟨C9_contract_violations.1,
    C9_contract_violations.2.2.1 cexBoard21 Tile.box_tile ⟨0, 0⟩ 1 (by decide)⟩

/-- Claim C10 (confirmed): `RectangularBoard::new` panics when exactly one
of the dimensions is zero (the border seeding indexes position 0 or
`width - 1` of an empty row, or row 0 of an empty grid), while `new(0, 0)`
succeeds and the resulting zero-cell board is vacuously fully marked. -/
theorem C10_new_zero_dims :
    (∀ w, 0 < w → RectangularBoard.new w 0 = none) ∧
    (∀ h, 0 < h → RectangularBoard.new 0 h = none) ∧
    (RectangularBoard.new 0 0).map RectangularBoard.is_all_marked = some true := by
  refine ⟨?_, ?_, rfl⟩
  · intro w hw
    simp [RectangularBoard.new, Nat.pos_iff_ne_zero.mp hw]
  · intro h hh
    simp [RectangularBoard.new, hh]

/-- Witness for `C10_new_zero_dims` at width 2 and height 3. -/
theorem C10_new_zero_dims_witness :
    RectangularBoard.new 2 0 = none ∧ RectangularBoard.new 0 3 = none ∧
      (RectangularBoard.new 0 0).map RectangularBoard.is_all_marked = some true :=
  ⟨C10_new_zero_dims.1 2 (by decide), C10_new_zero_dims.2.1 3 (by decide),
    C10_new_zero_dims.2.2⟩

namespace RectangularBoard

theorem scanBestAux_none_of_mem {b : RectangularBoard} {coords : List (Nat × Nat)}
    {acc : ScanAcc} {i j : Nat}
    (hmem : (i, j) ∈ coords) (hunm : b.markedAt i j = false) (hc : b.countAt i j = 4) :
    scanBestAux b false coords acc = none := by
  induction coords generalizing acc with
  | nil => cases hmem
  | cons hd rest ih =>
    obtain ⟨i2, j2⟩ := hd
    rcases List.mem_cons.mp hmem with heq | hrest
    · obtain ⟨rfl, rfl⟩ := Prod.mk.injEq .. ▸ heq
      simp [scanBestAux, hunm, hc]
    · by_cases hm : b.markedAt i2 j2
      · simpa [scanBestAux, hm] using ih hrest
      · by_cases hc2 : b.countAt i2 j2 = 4
        · simp [scanBestAux, hm, hc2]
        · by_cases hgt : (match acc with
            | none => true
            | some a => decide (a.2 < b.countAt i2 j2)) = true
          · simpa [scanBestAux, hm, hc2, hgt] using ih hrest
          · simpa [scanBestAux, hm, hc2, hgt] using ih hrest

theorem mem_scanCoords {b : RectangularBoard} {i j : Nat} :
    (i, j) ∈ b.scanCoords ↔ i < b.height ∧ j < b.width := by
  simp only [scanCoords, List.mem_flatMap, List.mem_map, List.mem_range]
  constructor
  · rintro ⟨j2, hj2, i2, hi2, heq⟩
    obtain ⟨rfl, rfl⟩ := Prod.mk.injEq .. ▸ heq
    exact ⟨hi2, hj2⟩
  · rintro ⟨hi, hj⟩
    exact ⟨j, hj, i, hi, rfl⟩

end RectangularBoard

/-- Claim C4 (confirmed): on any board with an in-range unmarked cell of
constraint count 4, a collection without a single-cell tile makes
`place_tile` return the empty successor set — the check happens inside the
best-cell scan itself, so no other cell's higher count can mask it. -/
theorem C4_count4_prune (b : RectangularBoard) (tc : TileCollection)
    (hsingle : tc.contains_single_tile = false)
    (i j : Nat) (hi : i < b.height) (hj : j < b.width)
    (hunm : b.markedAt i j = false) (hc : b.countAt i j = 4) :
    b.place_tile tc = [] := by
  have hscan : b.scanBest tc = none := by
    rw [RectangularBoard.scanBest, hsingle]
    exact RectangularBoard.scanBestAux_none_of_mem
      (RectangularBoard.mem_scanCoords.mpr ⟨hi, hj⟩) hunm hc
  rw [RectangularBoard.place_tile, hscan]

/-- Witness for `C4_count4_prune`: on the consistent `4 x 2` board with
cells `(0,0)`, `(0,2)`, `(1,1)` marked, cell `(0,1)` is unmarked with
count 4, and the diagonal-domino/L-triomino collection has no single-cell
tile, so `place_tile` returns no successors. -/
theorem C4_count4_prune_witness : cexBoardC3.place_tile cexTCC3 = [] :=
  C4_count4_prune cexBoardC3 cexTCC3 (by decide) 0 1 (by decide) (by decide)
    (by decide) (by decide)

theorem list_ext_getD {α : Type} {l1 l2 : List α} (d : α)
    (hlen : l1.length = l2.length)
    (hpt : ∀ i < l1.length, l1.getD i d = l2.getD i d) : l1 = l2 := by
  apply List.ext_getElem hlen
  intro i h1 h2
  have := hpt i h1
  rwa [List.getD_eq_getElem _ _ h1, List.getD_eq_getElem _ _ h2] at this

theorem grid_ext_getD {α : Type} {g1 g2 : List (List α)} {h w : Nat} (d : α)
    (hl1 : g1.length = h) (hr1 : ∀ row ∈ g1, row.length = w)
    (hl2 : g2.length = h) (hr2 : ∀ row ∈ g2, row.length = w)
    (hpt : ∀ i < h, ∀ j < w, (g1.getD i []).getD j d = (g2.getD i []).getD j d) :
    g1 = g2 := by
  apply list_ext_getD ([] : List α) (by rw [hl1, hl2])
  intro i hi
  rw [hl1] at hi
  have hm1 : g1.getD i [] ∈ g1 := by
    rw [List.getD_eq_getElem _ _ (by rw [hl1]; exact hi)]
    exact List.getElem_mem _
  have hm2 : g2.getD i [] ∈ g2 := by
    rw [List.getD_eq_getElem _ _ (by rw [hl2]; exact hi)]
    exact List.getElem_mem _
  apply list_ext_getD d
  · rw [hr1 _ hm1, hr2 _ hm2]
  · intro j hj
    rw [hr1 _ hm1] at hj
    exact hpt i hi j hj

theorem RectangularBoard.eq_of_fields {b1 b2 : RectangularBoard}
    (hw : b1.width = b2.width) (hh : b1.height = b2.height)
    (hb : b1.board = b2.board) (hc : b1.counts = b2.counts) : b1 = b2 := by
  cases b1; cases b2; simp_all

theorem newMarkedNbrs_congr {b0 b1 b2 : RectangularBoard} (i j : Nat)
    (hw : b1.width = b2.width) (hh : b1.height = b2.height)
    (hb : b1.board = b2.board) :
    newMarkedNbrs b0 b1 i j = newMarkedNbrs b0 b2 i j := by
  simp only [newMarkedNbrs, newNbr, RectangularBoard.is_valid, RectangularBoard.is_marked,
    RectangularBoard.markedAt, hw, hh, hb]

/-- Claim C6 (corrected), counterexample: `l_board(2, 1)` and `new(2, 2)`
with cell `(0,1)` marked through `mark` have identical marked grids and
identical dimensions but differ in their constraint-count grids, and the
derived `PartialEq`/`Hash` compare ALL fields, so the two values are NOT
equal (the serde `skip_serializing` attributes only affect serialization,
not equality or hashing). -/
theorem C6_board_eq_cex :
    RectangularBoard.l_board 2 1 = some cexBoardL ∧
    ((RectangularBoard.new 2 2).map (fun b => b.mark ⟨0, 1⟩)) = some cexBoardM ∧
    cexBoardL.board = cexBoardM.board ∧
    cexBoardL.width = cexBoardM.width ∧ cexBoardL.height = cexBoardM.height ∧
    cexBoardL ≠ cexBoardM := by
  refine ⟨by decide, by decide, by decide, by decide, by decide, by decide⟩

/-- Claim C6 (corrected, amended): `RectangularBoard` equality and hashing
compare the full structure — dimensions, marked grid AND constraint-count
grid.  Within a single run the distinction is invisible: any two
well-formed boards derived from the same initial board by marking (the
`Det` invariant, which every board produced by the search satisfies) that
have identical marked grids are equal as values, so state deduplication
still behaves as marked-grid identity. -/
theorem C6_board_eq_amended (b0 b1 b2 : RectangularBoard)
    (hWF1 : b1.WF) (hWF2 : b2.WF)
    (h1 : Det b0 b1) (h2 : Det b0 b2) (hmg : b1.board = b2.board) :
    b1 = b2 := by
  obtain ⟨hw1, hh1, _, hc1⟩ := h1
  obtain ⟨hw2, hh2, _, hc2⟩ := h2
  have hw : b1.width = b2.width := by rw [hw1, hw2]
  have hh : b1.height = b2.height := by rw [hh1, hh2]
  apply RectangularBoard.eq_of_fields hw hh hmg
  obtain ⟨_, _, hcl1, hcw1⟩ := hWF1
  obtain ⟨_, _, hcl2, hcw2⟩ := hWF2
  apply grid_ext_getD (h := b1.height) (w := b1.width) 0 hcl1 hcw1
    (by rw [hcl2, hh]) (by intro row hrow; rw [hcw2 row hrow, hw])
  intro i hi j hj
  show b1.countAt i j = b2.countAt i j
  rw [hc1 i hi j hj, hc2 i (hh ▸ hi) j (hw ▸ hj),
    @newMarkedNbrs_congr b0 _ _ i j hw hh hmg]

/-- Witness for `C6_board_eq_amended`: marking cells `(0,0)` then `(0,1)`
of the fresh `2 x 2` board yields the same value as marking `(0,1)` then
`(0,0)`. -/
theorem C6_board_eq_witness :
    ((⟨2, 2, [[false, false], [false, false]], [[1, 1], [1, 1]]⟩ :
        RectangularBoard).mark ⟨0, 0⟩ |>.mark ⟨0, 1⟩) =
      ((⟨2, 2, [[false, false], [false, false]], [[1, 1], [1, 1]]⟩ :
        RectangularBoard).mark ⟨0, 1⟩ |>.mark ⟨0, 0⟩) := by
  exact C6_board_eq_amended
    ⟨2, 2, [[false, false], [false, false]], [[1, 1], [1, 1]]⟩ _ _
    (by decide) (by decide) (by decide) (by decide) (by decide)

theorem rotIter_mk (a : Nat) (ds : List Direction) :
    rotIter a ⟨ds⟩ = ⟨ds.map (Direction.rotate^[a])⟩ := by
  induction a generalizing ds with
  | zero => simp [rotIter]
  | succ a ih =>
    rw [rotIter, Function.iterate_succ_apply]
    show rotIter a ⟨ds.map Direction.rotate⟩ = _
    rw [ih, List.map_map, Function.iterate_succ]

theorem smul_r_def (i : ZMod 4) (t : Tile) :
    (DihedralGroup.r i : DihedralGroup 4) • t = rotIter i.val t := rfl

theorem smul_sr_def (i : ZMod 4) (t : Tile) :
    (DihedralGroup.sr i : DihedralGroup 4) • t = (rotIter i.val t).reflect Axis.Vertical := rfl

theorem rotate_eq_smul (t : Tile) :
    t.rotate = (DihedralGroup.r 1 : DihedralGroup 4) • t := by
  cases t with
  | mk ds =>
    rw [smul_r_def, show ((1 : ZMod 4)).val = 1 from rfl, rotIter_mk]
    rfl

theorem reflectV_eq_smul (t : Tile) :
    t.reflect Axis.Vertical = (DihedralGroup.sr 0 : DihedralGroup 4) • t := rfl

theorem reflectH_eq_smul (t : Tile) :
    t.reflect Axis.Horizontal = (DihedralGroup.sr 2 : DihedralGroup 4) • t := by
  cases t with
  | mk ds =>
    rw [smul_sr_def, show ((2 : ZMod 4)).val = 2 from rfl, rotIter_mk]
    show Tile.mk (ds.map _) = ⟨(ds.map _).map _⟩
    rw [List.map_map]
    have hd : ∀ d : Direction,
        (fun d => Direction.reflect d Axis.Horizontal) d =
          ((fun d => Direction.reflect d Axis.Vertical) ∘ Direction.rotate^[2]) d := by decide
    rw [List.map_congr_left (fun d _ => hd d)]

theorem subset_orbitStep (S : Finset Tile) : S ⊆ orbitStep S := by
  intro x hx
  simp only [orbitStep, Finset.mem_union]
  exact Or.inl (Or.inl (Or.inl hx))

theorem rotate_mem_orbitStep {S : Finset Tile} {x : Tile} (hx : x ∈ S) :
    x.rotate ∈ orbitStep S := by
  simp only [orbitStep, Finset.mem_union, Finset.mem_image]
  exact Or.inl (Or.inl (Or.inr ⟨x, hx, rfl⟩))

theorem reflectH_mem_orbitStep {S : Finset Tile} {x : Tile} (hx : x ∈ S) :
    x.reflect Axis.Horizontal ∈ orbitStep S := by
  simp only [orbitStep, Finset.mem_union, Finset.mem_image]
  exact Or.inl (Or.inr ⟨x, hx, rfl⟩)

theorem reflectV_mem_orbitStep {S : Finset Tile} {x : Tile} (hx : x ∈ S) :
    x.reflect Axis.Vertical ∈ orbitStep S := by
  simp only [orbitStep, Finset.mem_union, Finset.mem_image]
  exact Or.inr ⟨x, hx, rfl⟩

theorem orbitStep_mono {S T : Finset Tile} (h : S ⊆ T) : orbitStep S ⊆ orbitStep T := by
  intro x hx
  simp only [orbitStep, Finset.mem_union, Finset.mem_image] at hx ⊢
  rcases hx with ((hx | ⟨y, hy, rfl⟩) | ⟨y, hy, rfl⟩) | ⟨y, hy, rfl⟩
  · exact Or.inl (Or.inl (Or.inl (h hx)))
  · exact Or.inl (Or.inl (Or.inr ⟨y, h hy, rfl⟩))
  · exact Or.inl (Or.inr ⟨y, h hy, rfl⟩)
  · exact Or.inr ⟨y, h hy, rfl⟩

theorem orbitStep_iterate_subset {a b : Nat} (hab : a ≤ b) (S : Finset Tile) :
    orbitStep^[a] S ⊆ orbitStep^[b] S := by
  induction b with
  | zero => simp [Nat.le_zero.mp hab]
  | succ b ih =>
    rcases Nat.lt_or_ge a (b + 1) with hlt | hge
    · calc orbitStep^[a] S ⊆ orbitStep^[b] S := ih (by omega)
        _ ⊆ orbitStep (orbitStep^[b] S) := subset_orbitStep _
        _ = orbitStep^[b + 1] S := (Function.iterate_succ_apply' _ _ _).symm
    · have : a = b + 1 := by omega
      subst this
      exact fun x hx => hx

theorem rotIter_mem_iterate {x : Tile} {S : Finset Tile} (hx : x ∈ S) (a : Nat) :
    rotIter a x ∈ orbitStep^[a] S := by
  induction a with
  | zero => exact hx
  | succ a ih =>
    have h1 : rotIter (a + 1) x = (rotIter a x).rotate :=
      Function.iterate_succ_apply' Tile.rotate a x
    rw [h1, Function.iterate_succ_apply']
    exact rotate_mem_orbitStep ih

theorem orbitStep_subset_image {seed : Tile} {S : Finset Tile}
    (h : S ⊆ Finset.univ.image (fun g : DihedralGroup 4 => g • seed)) :
    orbitStep S ⊆ Finset.univ.image (fun g : DihedralGroup 4 => g • seed) := by
  intro x hx
  simp only [orbitStep, Finset.mem_union, Finset.mem_image] at hx
  rcases hx with ((hx | ⟨y, hy, rfl⟩) | ⟨y, hy, rfl⟩) | ⟨y, hy, rfl⟩
  · exact h hx
  · obtain ⟨g, _, rfl⟩ := Finset.mem_image.mp (h hy)
    refine Finset.mem_image.mpr ⟨DihedralGroup.r 1 * g, Finset.mem_univ _, ?_⟩
    rw [mul_smul, ← rotate_eq_smul]
  · obtain ⟨g, _, rfl⟩ := Finset.mem_image.mp (h hy)
    refine Finset.mem_image.mpr ⟨DihedralGroup.sr 2 * g, Finset.mem_univ _, ?_⟩
    rw [mul_smul, ← reflectH_eq_smul]
  · obtain ⟨g, _, rfl⟩ := Finset.mem_image.mp (h hy)
    refine Finset.mem_image.mpr ⟨DihedralGroup.sr 0 * g, Finset.mem_univ _, ?_⟩
    rw [mul_smul, ← reflectV_eq_smul]

set_option maxHeartbeats 1000000 in
theorem symmetry_orbit_eq_image (seed : Tile) :
    symmetry_orbit seed = Finset.univ.image (fun g : DihedralGroup 4 => g • seed) := by
  unfold symmetry_orbit
  apply Finset.Subset.antisymm
  · have : ∀ k, orbitStep^[k] {seed} ⊆
        Finset.univ.image (fun g : DihedralGroup 4 => g • seed) := by
      intro k
      induction k with
      | zero =>
        intro x hx
        rw [Finset.mem_singleton.mp hx]
        exact Finset.mem_image.mpr ⟨1, Finset.mem_univ _, one_smul _ _⟩
      | succ k ih =>
        rw [Function.iterate_succ_apply']
        exact orbitStep_subset_image ih
    exact this 8
  · intro x hx
    obtain ⟨g, _, rfl⟩ := Finset.mem_image.mp hx
    cases g with
    | r i =>
      rw [smul_r_def]
      have h1 : rotIter i.val seed ∈ orbitStep^[i.val] {seed} :=
        rotIter_mem_iterate (Finset.mem_singleton_self seed) i.val
      exact orbitStep_iterate_subset (by have := ZMod.val_lt i; omega) _ h1
    | sr i =>
      rw [smul_sr_def]
      have h1 : rotIter i.val seed ∈ orbitStep^[i.val] {seed} :=
        rotIter_mem_iterate (Finset.mem_singleton_self seed) i.val
      have h2 : (rotIter i.val seed).reflect Axis.Vertical ∈
          orbitStep^[i.val + 1] {seed} := by
        rw [Function.iterate_succ_apply']
        exact reflectV_mem_orbitStep h1
      exact orbitStep_iterate_subset (by have := ZMod.val_lt i; omega) _ h2

theorem symmetry_orbit_closed (seed t : Tile) (ht : t ∈ symmetry_orbit seed) :
    t.rotate ∈ symmetry_orbit seed ∧
    t.reflect Axis.Horizontal ∈ symmetry_orbit seed ∧
    t.reflect Axis.Vertical ∈ symmetry_orbit seed := by
  rw [symmetry_orbit_eq_image] at ht ⊢
  obtain ⟨g, _, rfl⟩ := Finset.mem_image.mp ht
  refine ⟨?_, ?_, ?_⟩
  · rw [rotate_eq_smul, ← mul_smul]
    exact Finset.mem_image.mpr ⟨_, Finset.mem_univ _, rfl⟩
  · rw [reflectH_eq_smul, ← mul_smul]
    exact Finset.mem_image.mpr ⟨_, Finset.mem_univ _, rfl⟩
  · rw [reflectV_eq_smul, ← mul_smul]
    exact Finset.mem_image.mpr ⟨_, Finset.mem_univ _, rfl⟩

theorem symmetry_orbit_card_dvd (seed : Tile) : (symmetry_orbit seed).card ∣ 8 := by
  rw [symmetry_orbit_eq_image]
  have hfin : Fintype (MulAction.orbit (DihedralGroup 4) seed) := Set.fintypeRange _
  have hcard : (Finset.univ.image (fun g : DihedralGroup 4 => g • seed)).card =
      Fintype.card (MulAction.orbit (DihedralGroup 4) seed) := by
    rw [← Set.toFinset_card]
    congr 1
    apply Finset.coe_injective
    rw [Set.coe_toFinset]
    ext x
    simp only [Finset.coe_image, Finset.coe_univ, Set.image_univ]
    exact Iff.rfl
  rw [hcard]
  have horb := MulAction.card_orbit_mul_card_stabilizer_eq_card_group
    (α := DihedralGroup 4) seed
  have h8 : Fintype.card (DihedralGroup 4) = 8 := by
    rw [DihedralGroup.card]
  exact Dvd.intro (Fintype.card (MulAction.stabilizer (DihedralGroup 4) seed))
    (by rw [← h8, ← horb])

theorem toFinset_orbitListStep (l : List Tile) :
    (orbitListStep l).toFinset = orbitStep l.toFinset := by
  ext x
  simp only [orbitListStep, orbitStep, List.mem_toFinset, List.mem_dedup,
    List.mem_append, List.mem_map, Finset.mem_union, Finset.mem_image]

theorem tileCollectionFrom_toFinset (t : Tile) :
    (tileCollectionFrom t).tiles.toFinset = symmetry_orbit t := by
  unfold tileCollectionFrom symmetry_orbit
  dsimp only
  have : ∀ k, (orbitListStep^[k] [t]).toFinset = orbitStep^[k] {t} := by
    intro k
    induction k with
    | zero => simp
    | succ k ih =>
      rw [Function.iterate_succ_apply', Function.iterate_succ_apply',
        toFinset_orbitListStep, ih]
  exact this 8

theorem tileCollectionFrom_nodup (t : Tile) : (tileCollectionFrom t).tiles.Nodup := by
  unfold tileCollectionFrom
  dsimp only
  rw [show (8 : Nat) = 7 + 1 from rfl, Function.iterate_succ_apply']
  exact List.nodup_dedup _

set_option maxHeartbeats 1600000 in
/-- Claim C7 (confirmed): the `TileCollection` generated from any seed tile
is closed under `rotate` and both reflections, and its number of members
divides 8 (orbit-stabilizer for the dihedral action of order 8). -/
theorem C7_orbit_closure (seed t : Tile) (ht : t ∈ (tileCollectionFrom seed).tiles) :
    t.rotate ∈ (tileCollectionFrom seed).tiles ∧
    t.reflect Axis.Horizontal ∈ (tileCollectionFrom seed).tiles ∧
    t.reflect Axis.Vertical ∈ (tileCollectionFrom seed).tiles ∧
    (tileCollectionFrom seed).tiles.length ∣ 8 := by
  have hmem : t ∈ symmetry_orbit seed := by
    rw [← tileCollectionFrom_toFinset]
    exact List.mem_toFinset.mpr ht
  obtain ⟨h1, h2, h3⟩ := symmetry_orbit_closed seed t hmem
  rw [← tileCollectionFrom_toFinset] at h1 h2 h3
  refine ⟨List.mem_toFinset.mp h1, List.mem_toFinset.mp h2, List.mem_toFinset.mp h3, ?_⟩
  rw [← List.toFinset_card_of_nodup (tileCollectionFrom_nodup seed),
    tileCollectionFrom_toFinset]
  exact symmetry_orbit_card_dvd seed

/-- Witness for `C7_orbit_closure` at the length-1 L tile (a domino). -/
theorem C7_orbit_closure_witness :
    (⟨[Direction.Left]⟩ : Tile) ∈ (tileCollectionFrom ⟨[Direction.Left]⟩).tiles ∧
    (Tile.mk [Direction.Left]).rotate ∈ (tileCollectionFrom ⟨[Direction.Left]⟩).tiles ∧
    (tileCollectionFrom ⟨[Direction.Left]⟩).tiles.length ∣ 8 := by
  have h := C7_orbit_closure ⟨[Direction.Left]⟩ ⟨[Direction.Left]⟩ (by decide)
  exact ⟨by decide, h.1, h.2.2.2⟩

theorem Position.add_zero_right (p : Position) : p.add ⟨0, 0⟩ = p := by
  apply Position.ext_xy <;> simp [Position.add]

theorem Position.add_assoc (p q r : Position) :
    (p.add q).add r = p.add (q.add r) := by
  apply Position.ext_xy <;> simp [Position.add] <;> ring

theorem Position.foldl_add_shift (l : List Position) (z : Position) :
    l.foldl Position.add z = z.add (l.foldl Position.add ⟨0, 0⟩) := by
  induction l generalizing z with
  | nil => simp [Position.add_zero_right]
  | cons a as ih =>
    show (as.foldl Position.add (z.add a)) = _
    rw [ih (z.add a),
      show (a :: as).foldl Position.add ⟨0, 0⟩ =
        as.foldl Position.add (Position.add ⟨0, 0⟩ a) from rfl,
      ih (Position.add ⟨0, 0⟩ a)]
    apply Position.ext_xy <;> simp [Position.add] <;> ring

theorem dirSum_nil : dirSum [] = ⟨0, 0⟩ := rfl

theorem dirSum_cons (d : Direction) (l : List Direction) :
    dirSum (d :: l) = d.vec.add (dirSum l) := by
  show (l.map Direction.vec).foldl Position.add (Position.add ⟨0, 0⟩ d.vec) = _
  rw [Position.foldl_add_shift]
  apply Position.ext_xy <;> simp [Position.add, dirSum]

theorem dirSum_append (l1 l2 : List Direction) :
    dirSum (l1 ++ l2) = (dirSum l1).add (dirSum l2) := by
  induction l1 with
  | nil => simp [dirSum_nil]; apply Position.ext_xy <;> simp [Position.add]
  | cons d l ih =>
    rw [List.cons_append, dirSum_cons, dirSum_cons, ih, Position.add_assoc]

theorem chainOffset_eq_dirSum (t : Tile) (i : Nat) :
    chainOffset t i = dirSum (t.directions.take i) := rfl

theorem chainOffset_succ (t : Tile) (i : Nat) (hi : i < t.directions.length) :
    chainOffset t (i + 1) = (chainOffset t i).add (t.directions.get ⟨i, hi⟩).vec := by
  rw [chainOffset_eq_dirSum, chainOffset_eq_dirSum, List.take_succ,
    List.getElem?_eq_getElem hi]
  show dirSum (_ ++ [_]) = _
  rw [dirSum_append]
  congr 1
  rw [show t.directions.get ⟨i, hi⟩ = t.directions[i] from rfl,
    show ([t.directions[i]] : List Direction) = t.directions[i] :: [] from rfl, dirSum_cons]
  exact Position.add_zero_right _

theorem walkList_length (p : Position) (ds : List Direction) :
    (walkList p ds).length = ds.length := by
  induction ds generalizing p with
  | nil => rfl
  | cons d ds ih => simp [walkList, ih]

theorem walkList_get? (p : Position) (ds : List Direction) (i : Nat) (hi : i < ds.length) :
    (walkList p ds).get? i = some (p.add (dirSum (ds.take (i + 1)))) := by
  induction ds generalizing p i with
  | nil => cases hi
  | cons d ds ih =>
    cases i with
    | zero =>
      show some (move_in_direction p d) = _
      rw [show (d :: ds).take 1 = [d] from rfl]
      congr 1
      apply Position.ext_xy <;>
        simp [move_in_direction, Position.add, dirSum_cons, dirSum_nil, Direction.vec]
    | succ i =>
      show (walkList (move_in_direction p d) ds).get? i = _
      rw [ih _ i (by simpa using hi)]
      congr 1
      rw [show (d :: ds).take (i + 1 + 1) = d :: ds.take (i + 1) from rfl, dirSum_cons]
      apply Position.ext_xy <;>
        simp [move_in_direction, Position.add, Direction.vec] <;> ring

theorem mem_walkList_iff {p : Position} {ds : List Direction} {x : Position} :
    x ∈ walkList p ds ↔ ∃ i < ds.length, x = p.add (dirSum (ds.take (i + 1))) := by
  rw [List.mem_iff_get?]
  constructor
  · rintro ⟨i, hget⟩
    have hi : i < ds.length := by
      by_contra hge
      rw [List.get?_eq_none.mpr (by rw [walkList_length]; omega)] at hget
      cases hget
    rw [walkList_get? p ds i hi] at hget
    exact ⟨i, hi, (Option.some.injEq .. ▸ hget).symm⟩
  · rintro ⟨i, hi, rfl⟩
    exact ⟨i, walkList_get? p ds i hi⟩

theorem walkCheck_eq_some_iff {b : RectangularBoard} {p : Position} {ds : List Direction}
    {l : List Position} :
    b.walkCheck p ds = some l ↔
      l = walkList p ds ∧ ∀ q ∈ walkList p ds, b.validUnmarked q = true := by
  induction ds generalizing p l with
  | nil =>
    constructor
    · intro h
      cases h
      exact ⟨rfl, by simp [walkList]⟩
    · rintro ⟨rfl, _⟩
      rfl
  | cons d ds ih =>
    show (if b.validUnmarked (move_in_direction p d) then
        (b.walkCheck (move_in_direction p d) ds).map _ else none) = some l ↔ _
    by_cases hv : b.validUnmarked (move_in_direction p d)
    · rw [if_pos hv]
      constructor
      · intro h
        obtain ⟨l2, hl2, rfl⟩ := Option.map_eq_some'.mp h
        obtain ⟨rfl, hall⟩ := ih.mp hl2
        refine ⟨rfl, ?_⟩
        intro q hq
        rcases List.mem_cons.mp hq with rfl | hq2
        · exact hv
        · exact hall q hq2
      · rintro ⟨rfl, hall⟩
        rw [Option.map_eq_some']
        refine ⟨walkList (move_in_direction p d) ds, ih.mpr ⟨rfl, ?_⟩, rfl⟩
        intro q hq
        exact hall q (List.mem_cons_of_mem _ hq)
    · rw [if_neg hv]
      constructor
      · intro h; cases h
      · rintro ⟨rfl, hall⟩
        exact absurd (hall _ (List.mem_cons_self _ _)) hv

theorem dirSum_take_succ (l : List Direction) (j : Nat) (hj : j < l.length) :
    dirSum (l.take (j + 1)) = (dirSum (l.take j)).add l[j].vec := by
  rw [List.take_succ, List.getElem?_eq_getElem hj]
  show dirSum (_ ++ [_]) = _
  rw [dirSum_append]
  congr 1
  rw [show ([l[j]] : List Direction) = l[j] :: [] from rfl, dirSum_cons]
  exact Position.add_zero_right _

theorem vec_opposite (d : Direction) : d.opposite.vec = ⟨-d.vec.x, -d.vec.y⟩ := by
  cases d <;> rfl

theorem backList_getElem (D : List Direction) (k j m : Nat) (hk : k ≤ D.length)
    (hj : j < k) (hm : m = k - 1 - j) (hmD : m < D.length) :
    (((D.take k).reverse).map Direction.opposite)[j]? = some (D[m]).opposite := by
  have hjl : j < (((D.take k).reverse).map Direction.opposite).length := by
    simp [List.length_take]
    omega
  rw [List.getElem?_eq_getElem hjl, List.getElem_map, List.getElem_reverse]
  congr 2
  rw [List.getElem_take]
  congr 1
  simp [List.length_take]
  omega

theorem dirSum_back (D : List Direction) (k j : Nat) (hk : k ≤ D.length) (hj : j < k) :
    dirSum ((((D.take k).reverse).map Direction.opposite).take (j + 1)) =
      (dirSum (D.take (k - 1 - j))).sub (dirSum (D.take k)) := by
  induction j with
  | zero =>
    have hmD : k - 1 < D.length := by omega
    rw [List.take_succ, List.take_zero, List.nil_append,
      backList_getElem D k 0 (k - 1) hk hj (by omega) hmD]
    have hsucc := dirSum_take_succ D (k - 1) hmD
    rw [show k - 1 + 1 = k by omega] at hsucc
    rw [hsucc]
    show dirSum (_ :: []) = _
    rw [dirSum_cons, dirSum_nil, vec_opposite]
    apply Position.ext_xy <;>
      simp [Position.add, Position.sub]
  | succ j ih =>
    have hjk : j < k := by omega
    have hmD : k - 2 - j < D.length := by omega
    rw [List.take_succ, backList_getElem D k (j + 1) (k - 2 - j) hk hj (by omega) hmD,
      dirSum_append, ih hjk,
      show k - 1 - (j + 1) = k - 2 - j by omega]
    have hsucc := dirSum_take_succ D (k - 2 - j) hmD
    rw [show k - 2 - j + 1 = k - 1 - j by omega] at hsucc
    rw [hsucc]
    show Position.add _ (dirSum (_ :: [])) = _
    rw [dirSum_cons, dirSum_nil, vec_opposite]
    apply Position.ext_xy <;>
      simp [Position.add, Position.sub] <;> ring

theorem dirSum_drop_take (D : List Direction) (k m : Nat) (hkm : k + m ≤ D.length) :
    dirSum ((D.drop k).take m) =
      (dirSum (D.take (k + m))).sub (dirSum (D.take k)) := by
  induction m with
  | zero =>
    rw [List.take_zero, dirSum_nil]
    apply Position.ext_xy <;> simp [Position.sub]
  | succ m ih =>
    have hm : m < (D.drop k).length := by simp; omega
    rw [dirSum_take_succ _ m hm, ih (by omega), List.getElem_drop]
    have hsucc := dirSum_take_succ D (k + m) (by omega)
    rw [show k + m + 1 = k + (m + 1) by omega] at hsucc
    rw [hsucc]
    apply Position.ext_xy <;> simp [Position.add, Position.sub] <;> ring

theorem chainCell_def (t : Tile) (k : Nat) (p : Position) (i : Nat) :
    chainCell t k p i = p.add ((chainOffset t i).sub (chainOffset t k)) := rfl

theorem chainCell_anchor (t : Tile) (k : Nat) (p : Position) :
    chainCell t k p k = p := by
  rw [chainCell_def]
  apply Position.ext_xy <;> simp [Position.add, Position.sub]

theorem chainCell_succ (t : Tile) (k : Nat) (p : Position) (i : Nat)
    (hi : i < t.directions.length) :
    chainCell t k p (i + 1) =
      (chainCell t k p i).add (t.directions.get ⟨i, hi⟩).vec := by
  rw [chainCell_def, chainCell_def, chainOffset_succ t i hi]
  apply Position.ext_xy <;> simp [Position.add, Position.sub] <;> ring

theorem mem_covList_iff {t : Tile} {p : Position} {k : Nat}
    (hk : k ≤ t.directions.length) {x : Position} :
    (x ∈ p :: (walkList p (((t.directions.take k).reverse).map Direction.opposite) ++
        walkList p (t.directions.drop k))) ↔
      ∃ i ≤ t.directions.length, x = chainCell t k p i := by
  have hblen : (((t.directions.take k).reverse).map Direction.opposite).length = k := by
    simp [List.length_take]
    omega
  have hflen : (t.directions.drop k).length = t.directions.length - k := by simp
  constructor
  · intro hx
    rcases List.mem_cons.mp hx with rfl | hx2
    · exact ⟨k, hk, (chainCell_anchor t k x).symm⟩
    rcases List.mem_append.mp hx2 with hb | hf
    · obtain ⟨j, hj, rfl⟩ := mem_walkList_iff.mp hb
      rw [hblen] at hj
      refine ⟨k - 1 - j, by omega, ?_⟩
      rw [chainCell_def, dirSum_back t.directions k j hk hj,
        chainOffset_eq_dirSum, chainOffset_eq_dirSum]
    · obtain ⟨m, hm, rfl⟩ := mem_walkList_iff.mp hf
      rw [hflen] at hm
      refine ⟨k + m + 1, by omega, ?_⟩
      rw [chainCell_def, dirSum_drop_take t.directions k (m + 1) (by omega),
        chainOffset_eq_dirSum, chainOffset_eq_dirSum,
        show k + (m + 1) = k + m + 1 by omega]
  · rintro ⟨i, hi, rfl⟩
    rcases Nat.lt_trichotomy i k with hik | rfl | hik
    · refine List.mem_cons_of_mem _ (List.mem_append.mpr (Or.inl ?_))
      refine mem_walkList_iff.mpr ⟨k - 1 - i, by omega, ?_⟩
      rw [dirSum_back t.directions k (k - 1 - i) hk (by omega),
        show k - 1 - (k - 1 - i) = i by omega, chainCell_def,
        chainOffset_eq_dirSum, chainOffset_eq_dirSum]
    · rw [chainCell_anchor]
      exact List.mem_cons_self _ _
    · refine List.mem_cons_of_mem _ (List.mem_append.mpr (Or.inr ?_))
      refine mem_walkList_iff.mpr ⟨i - k - 1, by omega, ?_⟩
      rw [dirSum_drop_take t.directions k (i - k - 1 + 1) (by omega),
        show k + (i - k - 1 + 1) = i by omega, chainCell_def,
        chainOffset_eq_dirSum, chainOffset_eq_dirSum]

/-- The covered list computed by a successful fit (anchor, then backward
walk, then forward walk, deduplicated). -/
theorem tile_fits_eq_some_iff {b : RectangularBoard} {t : Tile} {p : Position} {k : Nat}
    (hk : k ≤ t.directions.length) {cov : List Position} :
    b.tile_fits_at_position t p k = some cov ↔
      (∀ i ≤ t.directions.length, b.validUnmarked (chainCell t k p i) = true) ∧
      cov = (p :: (walkList p (((t.directions.take k).reverse).map Direction.opposite) ++
        walkList p (t.directions.drop k))).dedup := by
  rw [RectangularBoard.tile_fits_at_position]
  by_cases hp : b.validUnmarked p
  · rw [if_pos hp]
    rcases hb : b.walkCheck p (((t.directions.take k).reverse).map Direction.opposite) with
      _ | lb
    · simp only [false_iff]
      constructor
      · intro h; cases h
      · rintro ⟨hall, _⟩
        have : ∃ l, b.walkCheck p (((t.directions.take k).reverse).map
            Direction.opposite) = some l := by
          refine ⟨_, walkCheck_eq_some_iff.mpr ⟨rfl, ?_⟩⟩
          intro q hq
          obtain ⟨i, hi, rfl⟩ := (mem_covList_iff hk).mp
            (List.mem_cons_of_mem _ (List.mem_append.mpr (Or.inl hq)))
          exact hall i hi
        rw [hb] at this
        obtain ⟨l, hl⟩ := this
        cases hl
    · rcases hf : b.walkCheck p (t.directions.drop k) with _ | lf
      · simp only [false_iff]
        constructor
        · intro h; cases h
        · rintro ⟨hall, _⟩
          have : ∃ l, b.walkCheck p (t.directions.drop k) = some l := by
            refine ⟨_, walkCheck_eq_some_iff.mpr ⟨rfl, ?_⟩⟩
            intro q hq
            obtain ⟨i, hi, rfl⟩ := (mem_covList_iff hk).mp
              (List.mem_cons_of_mem _ (List.mem_append.mpr (Or.inr hq)))
            exact hall i hi
          rw [hf] at this
          obtain ⟨l, hl⟩ := this
          cases hl
      · obtain ⟨rfl, hballv⟩ := walkCheck_eq_some_iff.mp hb
        obtain ⟨rfl, hfallv⟩ := walkCheck_eq_some_iff.mp hf
        constructor
        · intro h
          cases h
          refine ⟨?_, rfl⟩
          intro i hi
          obtain hx := (mem_covList_iff (t := t) (p := p) (k := k) hk).mpr ⟨i, hi, rfl⟩
          rcases List.mem_cons.mp hx with heq | hx2
          · rw [heq]; exact hp
          rcases List.mem_append.mp hx2 with hx3 | hx3
          · exact hballv _ hx3
          · exact hfallv _ hx3
        · rintro ⟨_, rfl⟩
          rfl
  · rw [if_neg hp]
    constructor
    · intro h; cases h
    · rintro ⟨hall, _⟩
      rw [← chainCell_anchor t k p] at hp
      exact absurd (hall k hk) hp

theorem fits_cov_nodup {b : RectangularBoard} {t : Tile} {p : Position} {k : Nat}
    (hk : k ≤ t.directions.length) {cov : List Position}
    (h : b.tile_fits_at_position t p k = some cov) : cov.Nodup := by
  obtain ⟨_, rfl⟩ := (tile_fits_eq_some_iff hk).mp h
  exact List.nodup_dedup _

theorem fits_cov_mem_iff {b : RectangularBoard} {t : Tile} {p : Position} {k : Nat}
    (hk : k ≤ t.directions.length) {cov : List Position}
    (h : b.tile_fits_at_position t p k = some cov) {x : Position} :
    x ∈ cov ↔ ∃ i ≤ t.directions.length, x = chainCell t k p i := by
  obtain ⟨_, rfl⟩ := (tile_fits_eq_some_iff hk).mp h
  rw [List.mem_dedup]
  exact mem_covList_iff hk

theorem fits_anchor_mem {b : RectangularBoard} {t : Tile} {p : Position} {k : Nat}
    (hk : k ≤ t.directions.length) {cov : List Position}
    (h : b.tile_fits_at_position t p k = some cov) : p ∈ cov :=
  (fits_cov_mem_iff hk h).mpr ⟨k, hk, (chainCell_anchor t k p).symm⟩

theorem fits_cov_validUnmarked {b : RectangularBoard} {t : Tile} {p : Position} {k : Nat}
    (hk : k ≤ t.directions.length) {cov : List Position}
    (h : b.tile_fits_at_position t p k = some cov) :
    ∀ q ∈ cov, b.validUnmarked q = true := by
  obtain ⟨hall, _⟩ := (tile_fits_eq_some_iff hk).mp h
  intro q hq
  obtain ⟨i, hi, rfl⟩ := (fits_cov_mem_iff hk h).mp hq
  exact hall i hi

theorem fits_cov_toFinset {b : RectangularBoard} {t : Tile} {p : Position} {k : Nat}
    (hk : k ≤ t.directions.length) {cov : List Position}
    (h : b.tile_fits_at_position t p k = some cov) :
    cov.toFinset = (chainCells t k p).toFinset := by
  ext x
  rw [List.mem_toFinset, List.mem_toFinset, fits_cov_mem_iff hk h]
  simp only [chainCells, List.mem_map, List.mem_range]
  constructor
  · rintro ⟨i, hi, rfl⟩
    exact ⟨i, by omega, rfl⟩
  · rintro ⟨i, hi, rfl⟩
    exact ⟨i, by omega, rfl⟩

theorem fits_mono {b b2 : RectangularBoard} {t : Tile} {p : Position} {k : Nat}
    (hk : k ≤ t.directions.length) {cov : List Position}
    (hmk : ∀ q, b2.validUnmarked q = true → b.validUnmarked q = true)
    (h : b2.tile_fits_at_position t p k = some cov) :
    b.tile_fits_at_position t p k = some cov := by
  obtain ⟨hall, rfl⟩ := (tile_fits_eq_some_iff hk).mp h
  exact (tile_fits_eq_some_iff hk).mpr ⟨fun i hi => hmk _ (hall i hi), rfl⟩

theorem fits_of_all_valid {b : RectangularBoard} {t : Tile} {p : Position} {k : Nat}
    (hk : k ≤ t.directions.length)
    (hall : ∀ i ≤ t.directions.length, b.validUnmarked (chainCell t k p i) = true) :
    ∃ cov, b.tile_fits_at_position t p k = some cov :=
  ⟨_, (tile_fits_eq_some_iff hk).mpr ⟨hall, rfl⟩⟩

theorem chainCell_reanchor (t : Tile) (k m : Nat) (p : Position) (i : Nat) :
    chainCell t m (chainCell t k p m) i = chainCell t k p i := by
  rw [chainCell_def, chainCell_def, chainCell_def]
  apply Position.ext_xy <;> simp [Position.add, Position.sub] <;> ring

theorem fits_reanchor {b : RectangularBoard} {t : Tile} {p : Position} {k m : Nat}
    (hk : k ≤ t.directions.length) (hm : m ≤ t.directions.length) {cov : List Position}
    (h : b.tile_fits_at_position t p k = some cov) :
    ∃ cov2, b.tile_fits_at_position t (chainCell t k p m) m = some cov2 ∧
      cov2.toFinset = cov.toFinset := by
  obtain ⟨hall, _⟩ := (tile_fits_eq_some_iff hk).mp h
  obtain ⟨cov2, h2⟩ := fits_of_all_valid hm (fun i hi => by
    rw [chainCell_reanchor]
    exact hall i hi)
  refine ⟨cov2, h2, ?_⟩
  rw [fits_cov_toFinset hm h2, fits_cov_toFinset hk h]
  ext x
  rw [List.mem_toFinset, List.mem_toFinset]
  simp only [chainCells, List.mem_map, List.mem_range]
  constructor
  · rintro ⟨i, hi, rfl⟩
    exact ⟨i, hi, (chainCell_reanchor t k m p i).symm⟩
  · rintro ⟨i, hi, rfl⟩
    exact ⟨i, hi, chainCell_reanchor t k m p i⟩

/-! ## Effects of `mark` and `mark_tile_at_position` on the board state -/

namespace RectangularBoard

theorem bump_width (b : RectangularBoard) (q : Position) : (bump b q).width = b.width := by
  unfold bump; split <;> rfl

theorem bump_height (b : RectangularBoard) (q : Position) : (bump b q).height = b.height := by
  unfold bump; split <;> rfl

theorem bump_board (b : RectangularBoard) (q : Position) : (bump b q).board = b.board := by
  unfold bump; split <;> rfl

theorem setMarked_width (b : RectangularBoard) (p : Position) :
    (setMarked b p).width = b.width := rfl

theorem setMarked_height (b : RectangularBoard) (p : Position) :
    (setMarked b p).height = b.height := rfl

theorem setMarked_counts (b : RectangularBoard) (p : Position) :
    (setMarked b p).counts = b.counts := rfl

theorem setMarked_board (b : RectangularBoard) (p : Position) :
    (setMarked b p).board =
      listModify (listModify (fun _ => true) p.y.toNat) p.x.toNat b.board := rfl

theorem mark_width (b : RectangularBoard) (p : Position) : (b.mark p).width = b.width := by
  show (setMarked _ p).width = b.width
  rw [setMarked_width, bump_width, bump_width, bump_width, bump_width]

theorem mark_height (b : RectangularBoard) (p : Position) : (b.mark p).height = b.height := by
  show (setMarked _ p).height = b.height
  rw [setMarked_height, bump_height, bump_height, bump_height, bump_height]

theorem mark_board (b : RectangularBoard) (p : Position) :
    (b.mark p).board =
      listModify (listModify (fun _ => true) p.y.toNat) p.x.toNat b.board := by
  show (setMarked _ p).board = _
  rw [setMarked_board, bump_board, bump_board, bump_board, bump_board]

theorem markedAt_mark (b : RectangularBoard) (p : Position) (i j : Nat) :
    (b.mark p).markedAt i j =
      if p.x.toNat = i ∧ i < b.board.length ∧ p.y.toNat = j ∧
          j < (b.board.getD i []).length then true
      else b.markedAt i j := by
  unfold markedAt
  rw [mark_board, getD_listModify]
  by_cases h1 : p.x.toNat = i ∧ i < b.board.length
  · rw [if_pos h1, getD_listModify]
    by_cases h2 : p.y.toNat = j ∧ j < (b.board.getD i []).length
    · rw [if_pos h2, if_pos ⟨h1.1, h1.2, h2.1, h2.2⟩]
    · rw [if_neg h2, if_neg (by tauto)]
  · rw [if_neg h1, if_neg (by tauto)]

theorem markedAt_mark_mono {b : RectangularBoard} {i j : Nat} (p : Position)
    (h : b.markedAt i j = true) : (b.mark p).markedAt i j = true := by
  rw [markedAt_mark]
  split
  · rfl
  · exact h

theorem is_valid_mark (b : RectangularBoard) (p q : Position) :
    (b.mark p).is_valid q = b.is_valid q := by
  unfold is_valid
  rw [mark_width, mark_height]

theorem is_marked_mark_mono {b : RectangularBoard} {q : Position} (p : Position)
    (h : b.is_marked q = true) : (b.mark p).is_marked q = true := by
  unfold is_marked at *
  exact markedAt_mark_mono p h

theorem validUnmarked_mark_mono {b : RectangularBoard} {q : Position} (p : Position)
    (h : (b.mark p).validUnmarked q = true) : b.validUnmarked q = true := by
  unfold validUnmarked at *
  rw [is_valid_mark] at h
  simp only [Bool.and_eq_true, Bool.not_eq_true'] at h ⊢
  refine ⟨h.1, ?_⟩
  cases hbm : b.is_marked q
  · rfl
  · rw [is_marked_mark_mono p hbm] at h
    exact h.2

theorem getD_mem_of_lt {α : Type} (l : List α) (i : Nat) (d : α) (h : i < l.length) :
    l.getD i d ∈ l := by
  rw [List.getD_eq_getElem _ _ h]
  exact List.getElem_mem _

theorem is_marked_mark {b : RectangularBoard} (hWF : b.WF) {p q : Position}
    (hp : b.is_valid p = true) (hq : b.is_valid q = true) :
    (b.mark p).is_marked q = (b.is_marked q || decide (q = p)) := by
  unfold is_valid at hp hq
  simp only [Bool.and_eq_true, decide_eq_true_eq] at hp hq
  obtain ⟨⟨⟨hpx0, hpxh⟩, hpy0⟩, hpyw⟩ := hp
  obtain ⟨⟨⟨hqx0, hqxh⟩, hqy0⟩, hqyw⟩ := hq
  have hql : q.x.toNat < b.board.length := by rw [hWF.1]; omega
  have hrow : (b.board.getD q.x.toNat []).length = b.width :=
    hWF.2.1 _ (getD_mem_of_lt _ _ _ hql)
  unfold is_marked
  rw [markedAt_mark]
  by_cases he : q = p
  · rw [if_pos ?hc, he]
    case hc =>
      subst he
      exact ⟨rfl, hql, rfl, by rw [hrow]; omega⟩
    simp
  · rw [if_neg ?hc]
    case hc =>
      rintro ⟨h1, _, h2, _⟩
      exact he (Position.ext_xy (by omega) (by omega))
    simp [he]

theorem is_marked_mark_self {b : RectangularBoard} (hWF : b.WF) {p : Position}
    (hp : b.is_valid p = true) : (b.mark p).is_marked p = true := by
  rw [is_marked_mark hWF hp hp]
  simp

theorem validUnmarked_mark_self {b : RectangularBoard} (hWF : b.WF) {p : Position}
    (hp : b.is_valid p = true) : (b.mark p).validUnmarked p = false := by
  unfold validUnmarked
  rw [is_marked_mark_self hWF hp]
  simp

theorem countAt_setMarked (b : RectangularBoard) (p : Position) (i j : Nat) :
    (setMarked b p).countAt i j = b.countAt i j := rfl

theorem countAt_bump (b : RectangularBoard) (q : Position) (i j : Nat) :
    (bump b q).countAt i j =
      b.countAt i j +
        (if b.is_valid q = true ∧ q.x.toNat = i ∧ i < b.counts.length ∧ q.y.toNat = j ∧
            j < (b.counts.getD i []).length then 1 else 0) := by
  unfold bump
  by_cases hv : b.is_valid q = true
  · rw [if_pos hv]
    unfold countAt
    show ((listModify _ _ b.counts).getD i []).getD j 0 = _
    rw [getD_listModify]
    by_cases h1 : q.x.toNat = i ∧ i < b.counts.length
    · rw [if_pos h1, getD_listModify]
      by_cases h2 : q.y.toNat = j ∧ j < (b.counts.getD i []).length
      · rw [if_pos h2, if_pos ⟨hv, h1.1, h1.2, h2.1, h2.2⟩]
      · rw [if_neg h2, if_neg (by tauto)]
        omega
    · rw [if_neg h1, if_neg (by tauto)]
      omega
  · rw [if_neg hv, if_neg (by tauto)]
    omega

theorem bump_is_valid (b : RectangularBoard) (q r : Position) :
    (bump b q).is_valid r = b.is_valid r := by
  unfold is_valid
  rw [bump_width, bump_height]

theorem bump_counts_length (b : RectangularBoard) (q : Position) :
    (bump b q).counts.length = b.counts.length := by
  unfold bump
  split
  · exact listModify_length _ _ _
  · rfl

theorem bump_counts_row_length (b : RectangularBoard) (q : Position) (i : Nat) :
    ((bump b q).counts.getD i []).length = (b.counts.getD i []).length := by
  unfold bump
  split
  · show ((listModify _ _ b.counts).getD i []).length = _
    rw [getD_listModify]
    split
    · exact listModify_length _ _ _
    · rfl
  · rfl

theorem countAt_mark {b : RectangularBoard} (hWF : b.WF) (p : Position) {i j : Nat}
    (hi : i < b.height) (hj : j < b.width) :
    (b.mark p).countAt i j =
      b.countAt i j + (if Position.cardNbr p ⟨(i : Int), (j : Int)⟩ then 1 else 0) := by
  have hcond : ∀ t : Position,
      (b.is_valid t = true ∧ t.x.toNat = i ∧ i < b.counts.length ∧ t.y.toNat = j ∧
        j < (b.counts.getD i []).length) ↔ t = ⟨(i : Int), (j : Int)⟩ := by
    intro t
    constructor
    · rintro ⟨hv, h1, _, h2, _⟩
      unfold is_valid at hv
      simp only [Bool.and_eq_true, decide_eq_true_eq] at hv
      exact Position.ext_xy (show t.x = (i : Int) by omega) (show t.y = (j : Int) by omega)
    · rintro rfl
      have hlc : i < b.counts.length := by rw [hWF.2.2.1]; exact hi
      have hrow : (b.counts.getD i []).length = b.width :=
        hWF.2.2.2 _ (getD_mem_of_lt _ _ _ hlc)
      refine ⟨?_, by simp, hlc, by simp, by rw [hrow]; exact hj⟩
      unfold is_valid
      simp only [Bool.and_eq_true, decide_eq_true_eq]
      omega
  show ((((b.bump ⟨p.x - 1, p.y⟩).bump ⟨p.x + 1, p.y⟩).bump ⟨p.x, p.y - 1⟩).bump
      ⟨p.x, p.y + 1⟩).countAt i j = _
  rw [countAt_bump, countAt_bump, countAt_bump, countAt_bump]
  simp only [bump_is_valid, bump_counts_length, bump_counts_row_length]
  simp only [hcond]
  simp only [Position.mk.injEq, Position.cardNbr]
  split_ifs <;> omega

theorem countsOK_mark {b : RectangularBoard} (hWF : b.WF) {p : Position}
    (hp : b.validUnmarked p = true) (hOK : b.CountsOK) : (b.mark p).CountsOK := by
  intro i hi j hj
  rw [mark_height] at hi
  rw [mark_width] at hj
  rw [countAt_mark hWF p hi hj]
  have hpv : b.is_valid p = true := by
    unfold validUnmarked at hp
    simp only [Bool.and_eq_true] at hp
    exact hp.1
  have hmono : ∀ r, (b.mark p).validUnmarked r = true → b.validUnmarked r = true :=
    fun r => validUnmarked_mark_mono p
  have hterm : ∀ r : Position,
      (if b.validUnmarked r = true then 0 else 1) ≤
        (if (b.mark p).validUnmarked r = true then 0 else 1) := by
    intro r
    by_cases h2 : (b.mark p).validUnmarked r = true
    · rw [if_pos h2, if_pos (hmono r h2)]
    · rw [if_neg h2]
      split <;> omega
  have hple : b.countAt i j ≤ b.blockedCount i j := hOK i hi j hj
  by_cases hc : Position.cardNbr p ⟨(i : Int), (j : Int)⟩
  · rw [if_pos hc]
    suffices hsuff : b.blockedCount i j + 1 ≤ (b.mark p).blockedCount i j by omega
    have hU := hterm (move_in_direction ⟨(i : Int), (j : Int)⟩ Direction.Up)
    have hD := hterm (move_in_direction ⟨(i : Int), (j : Int)⟩ Direction.Down)
    have hL := hterm (move_in_direction ⟨(i : Int), (j : Int)⟩ Direction.Left)
    have hR := hterm (move_in_direction ⟨(i : Int), (j : Int)⟩ Direction.Right)
    have hself : (b.mark p).validUnmarked p = false := validUnmarked_mark_self hWF hpv
    have e1 : (if b.validUnmarked p = true then 0 else 1) = 0 := if_pos hp
    have e2 : (if (b.mark p).validUnmarked p = true then 0 else 1) = 1 := by
      rw [hself]
      simp
    unfold blockedCount
    rcases hc with ⟨h1, h2⟩ | ⟨h1, h2⟩ | ⟨h1, h2⟩ | ⟨h1, h2⟩
    · have h1x : (i : Int) = p.x - 1 := h1
      have h2y : (j : Int) = p.y := h2
      have hpe : move_in_direction ⟨(i : Int), (j : Int)⟩ Direction.Down = p := by
        apply Position.ext_xy
        · show (i : Int) + 1 = p.x
          omega
        · show (j : Int) + 0 = p.y
          omega
      rw [hpe] at hD ⊢
      omega
    · have h1x : (i : Int) = p.x + 1 := h1
      have h2y : (j : Int) = p.y := h2
      have hpe : move_in_direction ⟨(i : Int), (j : Int)⟩ Direction.Up = p := by
        apply Position.ext_xy
        · show (i : Int) + -1 = p.x
          omega
        · show (j : Int) + 0 = p.y
          omega
      rw [hpe] at hU ⊢
      omega
    · have h1x : (i : Int) = p.x := h1
      have h2y : (j : Int) = p.y - 1 := h2
      have hpe : move_in_direction ⟨(i : Int), (j : Int)⟩ Direction.Right = p := by
        apply Position.ext_xy
        · show (i : Int) + 0 = p.x
          omega
        · show (j : Int) + 1 = p.y
          omega
      rw [hpe] at hR ⊢
      omega
    · have h1x : (i : Int) = p.x := h1
      have h2y : (j : Int) = p.y + 1 := h2
      have hpe : move_in_direction ⟨(i : Int), (j : Int)⟩ Direction.Left = p := by
        apply Position.ext_xy
        · show (i : Int) + 0 = p.x
          omega
        · show (j : Int) + -1 = p.y
          omega
      rw [hpe] at hL ⊢
      omega
  · rw [if_neg hc]
    have hU := hterm (move_in_direction ⟨(i : Int), (j : Int)⟩ Direction.Up)
    have hD := hterm (move_in_direction ⟨(i : Int), (j : Int)⟩ Direction.Down)
    have hL := hterm (move_in_direction ⟨(i : Int), (j : Int)⟩ Direction.Left)
    have hR := hterm (move_in_direction ⟨(i : Int), (j : Int)⟩ Direction.Right)
    unfold blockedCount at hple ⊢
    omega

theorem newNbr_mark {b0 b : RectangularBoard} (hWF : b.WF) {p : Position}
    (hv : b.is_valid p = true) (hunm : b.is_marked p = false)
    (hb0 : b0.is_marked p = false) (i j : Nat) (d : Direction) :
    newNbr b0 (b.mark p) i j d =
      newNbr b0 b i j d +
        (if move_in_direction ⟨(i : Int), (j : Int)⟩ d = p then 1 else 0) := by
  unfold newNbr
  dsimp only
  by_cases hqp : move_in_direction ⟨(i : Int), (j : Int)⟩ d = p
  · rw [hqp]
    simp only [is_valid_mark, is_marked_mark_self hWF hv, hv, hunm, hb0]
    simp
  · simp only [is_valid_mark]
    rw [if_neg hqp]
    by_cases hqv : b.is_valid (move_in_direction ⟨(i : Int), (j : Int)⟩ d) = true
    · simp only [is_marked_mark hWF hv hqv]
      simp [hqp]
    · have hqf : b.is_valid (move_in_direction ⟨(i : Int), (j : Int)⟩ d) = false := by
        cases h : b.is_valid (move_in_direction ⟨(i : Int), (j : Int)⟩ d)
        · rfl
        · exact absurd h hqv
      simp [hqf]

theorem newMarkedNbrs_mark {b0 b : RectangularBoard} (hWF : b.WF) {p : Position}
    (hv : b.is_valid p = true) (hunm : b.is_marked p = false)
    (hb0 : b0.is_marked p = false) (i j : Nat) :
    newMarkedNbrs b0 (b.mark p) i j =
      newMarkedNbrs b0 b i j +
        (if Position.cardNbr p ⟨(i : Int), (j : Int)⟩ then 1 else 0) := by
  unfold newMarkedNbrs
  rw [newNbr_mark hWF hv hunm hb0 i j Direction.Up,
    newNbr_mark hWF hv hunm hb0 i j Direction.Down,
    newNbr_mark hWF hv hunm hb0 i j Direction.Left,
    newNbr_mark hWF hv hunm hb0 i j Direction.Right]
  have hU : move_in_direction ⟨(i : Int), (j : Int)⟩ Direction.Up =
      ⟨(i : Int) + -1, (j : Int) + 0⟩ := rfl
  have hD : move_in_direction ⟨(i : Int), (j : Int)⟩ Direction.Down =
      ⟨(i : Int) + 1, (j : Int) + 0⟩ := rfl
  have hL : move_in_direction ⟨(i : Int), (j : Int)⟩ Direction.Left =
      ⟨(i : Int) + 0, (j : Int) + -1⟩ := rfl
  have hR : move_in_direction ⟨(i : Int), (j : Int)⟩ Direction.Right =
      ⟨(i : Int) + 0, (j : Int) + 1⟩ := rfl
  rw [hU, hD, hL, hR]
  have hmk : ∀ a c : Int, ((⟨a, c⟩ : Position) = p) ↔ (a = p.x ∧ c = p.y) := by
    intro a c
    constructor
    · rintro rfl
      exact ⟨rfl, rfl⟩
    · rintro ⟨h1, h2⟩
      exact Position.ext_xy h1 h2
  simp only [hmk, Position.cardNbr]
  split_ifs <;> omega

theorem det_mark {b0 b : RectangularBoard} (hWF : b.WF) (hdet : Det b0 b) {p : Position}
    (hp : b.validUnmarked p = true) : Det b0 (b.mark p) := by
  obtain ⟨hw, hh, hmono, hcnt⟩ := hdet
  have hpv : b.is_valid p = true := by
    unfold validUnmarked at hp
    simp only [Bool.and_eq_true] at hp
    exact hp.1
  have hpunm : b.is_marked p = false := by
    unfold validUnmarked at hp
    simp only [Bool.and_eq_true, Bool.not_eq_true'] at hp
    exact hp.2
  have hpx : p.x.toNat < b.height ∧ p.y.toNat < b.width := by
    unfold is_valid at hpv
    simp only [Bool.and_eq_true, decide_eq_true_eq] at hpv
    omega
  have hb0 : b0.is_marked p = false := by
    cases h0 : b0.is_marked p
    · rfl
    · have := hmono p.x.toNat hpx.1 p.y.toNat hpx.2 h0
      unfold is_marked at hpunm
      rw [this] at hpunm
      cases hpunm
  refine ⟨by rw [mark_width]; exact hw, by rw [mark_height]; exact hh, ?_, ?_⟩
  · intro i hi j hj h0
    rw [mark_height] at hi
    rw [mark_width] at hj
    exact markedAt_mark_mono p (hmono i hi j hj h0)
  · intro i hi j hj
    rw [mark_height] at hi
    rw [mark_width] at hj
    rw [countAt_mark hWF p hi hj, hcnt i hi j hj,
      newMarkedNbrs_mark hWF hpv hpunm hb0 i j]
    omega

end RectangularBoard

theorem mem_listModify {α : Type} {f : α → α} {n : Nat} {l : List α} {x : α}
    (hx : x ∈ listModify f n l) : x ∈ l ∨ ∃ y ∈ l, x = f y := by
  induction l generalizing n with
  | nil => cases n <;> cases hx
  | cons a as ih =>
    cases n with
    | zero =>
      rcases List.mem_cons.mp hx with rfl | h2
      · exact Or.inr ⟨a, List.mem_cons_self a as, rfl⟩
      · exact Or.inl (List.mem_cons_of_mem a h2)
    | succ n =>
      rcases List.mem_cons.mp hx with rfl | h2
      · exact Or.inl (List.mem_cons_self x as)
      · rcases ih h2 with h3 | ⟨y, hy, rfl⟩
        · exact Or.inl (List.mem_cons_of_mem a h3)
        · exact Or.inr ⟨y, List.mem_cons_of_mem a hy, rfl⟩

namespace RectangularBoard

theorem WF_bump {b : RectangularBoard} (hWF : b.WF) (q : Position) : (bump b q).WF := by
  obtain ⟨h1, h2, h3, h4⟩ := hWF
  refine ⟨?_, ?_, ?_, ?_⟩
  · rw [bump_board, bump_height]; exact h1
  · rw [bump_board, bump_width]
    exact fun row hrow => h2 row hrow
  · rw [bump_counts_length, bump_height]; exact h3
  · rw [bump_width]
    intro row hrow
    have : (bump b q).counts = b.counts ∨
        (bump b q).counts =
          listModify (listModify (· + 1) q.y.toNat) q.x.toNat b.counts := by
      unfold bump
      split
      · exact Or.inr rfl
      · exact Or.inl rfl
    rcases this with h | h
    · rw [h] at hrow
      exact h4 row hrow
    · rw [h] at hrow
      rcases mem_listModify hrow with h5 | ⟨y, hy, rfl⟩
      · exact h4 row h5
      · rw [listModify_length]
        exact h4 y hy

theorem WF_setMarked {b : RectangularBoard} (hWF : b.WF) (p : Position) :
    (setMarked b p).WF := by
  obtain ⟨h1, h2, h3, h4⟩ := hWF
  refine ⟨?_, ?_, h3, h4⟩
  · rw [setMarked_board, listModify_length]; exact h1
  · rw [setMarked_board]
    intro row hrow
    rcases mem_listModify hrow with h5 | ⟨y, hy, rfl⟩
    · exact h2 row h5
    · rw [listModify_length]
      exact h2 y hy

theorem WF_mark {b : RectangularBoard} (hWF : b.WF) (p : Position) : (b.mark p).WF := by
  show (setMarked _ p).WF
  exact WF_setMarked (WF_bump (WF_bump (WF_bump (WF_bump hWF _) _) _) _) p

theorem mark_tile_cons (b : RectangularBoard) (q : Position) (cov : List Position) :
    b.mark_tile_at_position (q :: cov) = (b.mark q).mark_tile_at_position cov := rfl

theorem mark_tile_props : ∀ (cov : List Position) (b : RectangularBoard), b.WF →
    cov.Nodup → (∀ q ∈ cov, b.validUnmarked q = true) →
    (b.mark_tile_at_position cov).WF ∧
    (b.mark_tile_at_position cov).width = b.width ∧
    (b.mark_tile_at_position cov).height = b.height ∧
    (∀ q, b.is_valid q = true →
      (b.mark_tile_at_position cov).is_marked q = (b.is_marked q || decide (q ∈ cov))) ∧
    (b.CountsOK → (b.mark_tile_at_position cov).CountsOK) ∧
    (∀ b0, Det b0 b → Det b0 (b.mark_tile_at_position cov))
  | [], b, hWF, _, _ => by
    refine ⟨hWF, rfl, rfl, ?_, fun h => h, fun b0 h => h⟩
    intro q _
    simp [mark_tile_at_position]
  | q :: cov, b, hWF, hnd, hval => by
    have hq := hval q (List.mem_cons_self q cov)
    have hqv : b.is_valid q = true := by
      unfold validUnmarked at hq
      simp only [Bool.and_eq_true] at hq
      exact hq.1
    have hnotmem : q ∉ cov := (List.nodup_cons.mp hnd).1
    have hval2 : ∀ r ∈ cov, (b.mark q).validUnmarked r = true := by
      intro r hr
      have hrv := hval r (List.mem_cons_of_mem q hr)
      have hrvalid : b.is_valid r = true := by
        unfold validUnmarked at hrv
        simp only [Bool.and_eq_true] at hrv
        exact hrv.1
      have hrunm : b.is_marked r = false := by
        unfold validUnmarked at hrv
        simp only [Bool.and_eq_true, Bool.not_eq_true'] at hrv
        exact hrv.2
      have hne : r ≠ q := fun heq => hnotmem (heq ▸ hr)
      unfold validUnmarked
      rw [is_valid_mark, is_marked_mark hWF hqv hrvalid, hrunm]
      simp [hrvalid, hne]
    obtain ⟨hWF2, hw2, hh2, hm2, hok2, hdet2⟩ :=
      mark_tile_props cov (b.mark q) (WF_mark hWF q) (List.nodup_cons.mp hnd).2 hval2
    rw [mark_tile_cons]
    refine ⟨hWF2, by rw [hw2, mark_width], by rw [hh2, mark_height], ?_, ?_, ?_⟩
    · intro r hrvalid
      rw [hm2 r (by rw [is_valid_mark]; exact hrvalid),
        is_marked_mark hWF hqv hrvalid]
      simp only [List.mem_cons]
      cases hb : b.is_marked r
      · simp [Bool.or_comm, or_comm]
      · simp
    · intro hOK
      exact hok2 (countsOK_mark hWF hq hOK)
    · intro b0 hdet
      exact hdet2 b0 (det_mark hWF hdet hq)

theorem validUnmarked_mark_tile_mono :
    ∀ (cov : List Position) (b : RectangularBoard) (q : Position),
      (b.mark_tile_at_position cov).validUnmarked q = true → b.validUnmarked q = true
  | [], _, _, h => h
  | c :: cov, b, q, h =>
    validUnmarked_mark_mono c
      (validUnmarked_mark_tile_mono cov (b.mark c) q (by rwa [← mark_tile_cons]))

theorem mem_unmarkedCells {b : RectangularBoard} {x : Position} :
    x ∈ b.unmarkedCells ↔ b.validUnmarked x = true := by
  unfold unmarkedCells
  simp only [Finset.mem_image, Finset.mem_filter, Finset.mem_product, Finset.mem_range]
  constructor
  · rintro ⟨⟨i, j⟩, ⟨⟨hi, hj⟩, hm⟩, rfl⟩
    simp only [Bool.not_eq_true'] at hm
    unfold validUnmarked is_valid is_marked
    simp only [Bool.and_eq_true, Bool.not_eq_true', decide_eq_true_eq, Int.toNat_natCast]
    exact ⟨⟨⟨⟨by omega, by omega⟩, by omega⟩, by omega⟩, hm⟩
  · intro h
    unfold validUnmarked is_valid is_marked at h
    simp only [Bool.and_eq_true, Bool.not_eq_true', decide_eq_true_eq] at h
    obtain ⟨⟨⟨⟨hx0, hxh⟩, hy0⟩, hyw⟩, hm⟩ := h
    refine ⟨⟨x.x.toNat, x.y.toNat⟩, ⟨⟨by omega, by omega⟩, ?_⟩, ?_⟩
    · simp only [Bool.not_eq_true']
      exact hm
    · exact Position.ext_xy (show ((x.x.toNat : Nat) : Int) = x.x by omega)
        (show ((x.y.toNat : Nat) : Int) = x.y by omega)

theorem is_valid_mark_tile {b : RectangularBoard} (hWF : b.WF) {cov : List Position}
    (hnd : cov.Nodup) (hval : ∀ q ∈ cov, b.validUnmarked q = true) (x : Position) :
    (b.mark_tile_at_position cov).is_valid x = b.is_valid x := by
  obtain ⟨_, hw, hh, _, _, _⟩ := mark_tile_props cov b hWF hnd hval
  unfold is_valid
  rw [hw, hh]

theorem unmarkedCells_mark_tile {b : RectangularBoard} (hWF : b.WF) {cov : List Position}
    (hnd : cov.Nodup) (hval : ∀ q ∈ cov, b.validUnmarked q = true) :
    (b.mark_tile_at_position cov).unmarkedCells = b.unmarkedCells \ cov.toFinset := by
  obtain ⟨_, hw, hh, hm, _, _⟩ := mark_tile_props cov b hWF hnd hval
  ext x
  rw [Finset.mem_sdiff, mem_unmarkedCells, mem_unmarkedCells, List.mem_toFinset]
  constructor
  · intro h
    have hbv : b.validUnmarked x = true := validUnmarked_mark_tile_mono cov b x h
    refine ⟨hbv, ?_⟩
    intro hxcov
    have hxv : b.is_valid x = true := by
      unfold validUnmarked at hbv
      simp only [Bool.and_eq_true] at hbv
      exact hbv.1
    have hmk : (b.mark_tile_at_position cov).is_marked x = true := by
      rw [hm x hxv]
      simp [hxcov]
    unfold validUnmarked at h
    rw [hmk] at h
    simp at h
  · rintro ⟨hbv, hxnc⟩
    have hxv : b.is_valid x = true := by
      unfold validUnmarked at hbv
      simp only [Bool.and_eq_true] at hbv
      exact hbv.1
    have hxm : b.is_marked x = false := by
      unfold validUnmarked at hbv
      simp only [Bool.and_eq_true, Bool.not_eq_true'] at hbv
      exact hbv.2
    unfold validUnmarked
    rw [is_valid_mark_tile hWF hnd hval, hm x hxv, hxm]
    simp [hxv, hxnc]

theorem is_all_marked_iff {b : RectangularBoard} (hWF : b.WF) :
    b.is_all_marked = true ↔ b.unmarkedCells = ∅ := by
  constructor
  · intro h
    rw [Finset.eq_empty_iff_forall_not_mem]
    intro x hx
    rw [mem_unmarkedCells] at hx
    unfold validUnmarked is_valid is_marked markedAt at hx
    simp only [Bool.and_eq_true, Bool.not_eq_true', decide_eq_true_eq] at hx
    obtain ⟨⟨⟨⟨hx0, hxh⟩, hy0⟩, hyw⟩, hm⟩ := hx
    unfold is_all_marked at h
    rw [List.all_eq_true] at h
    have hrl : x.x.toNat < b.board.length := by rw [hWF.1]; omega
    have hrow := h _ (getD_mem_of_lt b.board x.x.toNat [] hrl)
    rw [List.all_eq_true] at hrow
    have hcl : x.y.toNat < (b.board.getD x.x.toNat []).length := by
      rw [hWF.2.1 _ (getD_mem_of_lt b.board x.x.toNat [] hrl)]
      omega
    have := hrow _ (getD_mem_of_lt _ x.y.toNat false hcl)
    rw [this] at hm
    cases hm
  · intro h
    unfold is_all_marked
    rw [List.all_eq_true]
    intro row hrow
    rw [List.all_eq_true]
    intro c hc
    by_contra hcf
    obtain ⟨i, hi, rfl⟩ := List.mem_iff_getElem.mp hrow
    obtain ⟨j, hj, rfl⟩ := List.mem_iff_getElem.mp hc
    have hcb : b.markedAt i j = false := by
      unfold markedAt
      rw [List.getD_eq_getElem _ _ hi, List.getD_eq_getElem _ _ hj]
      cases hval : b.board[i][j]
      · rfl
      · exact absurd hval hcf
    have hx : (⟨(i : Int), (j : Int)⟩ : Position) ∈ b.unmarkedCells := by
      rw [mem_unmarkedCells]
      unfold validUnmarked is_valid is_marked
      simp only [Bool.and_eq_true, Bool.not_eq_true', decide_eq_true_eq, Int.toNat_natCast]
      have hih : i < b.height := by rw [← hWF.1]; exact hi
      have hjw : j < b.width := by rw [← hWF.2.1 _ hrow]; exact hj
      exact ⟨⟨⟨⟨by omega, by omega⟩, by omega⟩, by omega⟩, hcb⟩
    rw [h] at hx
    cases hx

theorem filter_range_card (w : Nat) (p : Nat → Bool) :
    ((Finset.range w).filter (fun j => p j = true)).card =
      ((List.range w).filter p).length := by
  induction w with
  | zero => rfl
  | succ w ih =>
    rw [Finset.range_succ, List.range_succ, List.filter_append, List.length_append,
      Finset.filter_insert]
    by_cases hp : p w = true
    · rw [if_pos hp, Finset.card_insert_of_not_mem (by simp), ih]
      simp [hp]
    · rw [if_neg hp, ih]
      simp [hp]

theorem sum_map_list_range (f : Nat → Nat) :
    ∀ n, ((List.range n).map f).sum = ∑ i ∈ Finset.range n, f i
  | 0 => rfl
  | n + 1 => by
    rw [List.range_succ, List.map_append, List.sum_append, Finset.sum_range_succ,
      sum_map_list_range f n]
    simp

theorem unmarkedCount_eq_card (b : RectangularBoard) :
    b.unmarkedCount = b.unmarkedCells.card := by
  unfold unmarkedCount unmarkedCells
  rw [Finset.card_image_of_injOn ?inj]
  case inj =>
    rintro ⟨i1, j1⟩ _ ⟨i2, j2⟩ _ heq
    have h1 : ((i1 : Int)) = (i2 : Int) := congrArg Position.x heq
    have h2 : ((j1 : Int)) = (j2 : Int) := congrArg Position.y heq
    have : i1 = i2 := by exact_mod_cast h1
    have : j1 = j2 := by exact_mod_cast h2
    simp_all
  rw [Finset.card_eq_sum_card_fiberwise
    (show ∀ x ∈ ((Finset.range b.height) ×ˢ (Finset.range b.width)).filter
        (fun ij => !(b.markedAt ij.1 ij.2)), Prod.fst x ∈ Finset.range b.height by
      rintro ⟨i, j⟩ hx
      simp only [Finset.mem_filter, Finset.mem_product] at hx
      exact hx.1.1)]
  rw [sum_map_list_range]
  apply Finset.sum_congr rfl
  intro i hi
  rw [← filter_range_card]
  apply Finset.card_bij (fun j _ => ((i, j) : Nat × Nat))
  · intro j hj
    simp only [Finset.mem_filter, Finset.mem_range] at hj
    simp only [Finset.mem_filter, Finset.mem_product, Finset.mem_range]
    exact ⟨⟨⟨by simpa using hi, hj.1⟩, hj.2⟩, trivial⟩
  · intro j2 h2 j3 h3 heq
    exact congrArg Prod.snd heq
  · rintro ⟨i2, j⟩ hx
    simp only [Finset.mem_filter, Finset.mem_product, Finset.mem_range] at hx
    obtain ⟨⟨⟨_, hj⟩, hm⟩, hfst⟩ := hx
    have hfst2 : i2 = i := hfst
    subst hfst2
    refine ⟨j, ?_, rfl⟩
    simp only [Finset.mem_filter, Finset.mem_range]
    exact ⟨hj, hm⟩

theorem scanBestAux_ne_some_none {b : RectangularBoard} {single : Bool} :
    ∀ (coords : List (Nat × Nat)) (a : (Nat × Nat) × Nat),
      scanBestAux b single coords (some a) ≠ some none
  | [], a => by
    intro h
    cases h
  | (i, j) :: rest, a => by
    intro h
    unfold scanBestAux at h
    by_cases hm : b.markedAt i j = false
    · rw [hm] at h
      simp only [Bool.not_false, if_true] at h
      by_cases h4 : (!single && decide (b.countAt i j = 4)) = true
      · rw [if_pos h4] at h
        cases h
      · rw [if_neg h4] at h
        by_cases hlt : a.2 < b.countAt i j
        · rw [if_pos (by simp [hlt])] at h
          exact scanBestAux_ne_some_none rest _ h
        · rw [if_neg (by simp [hlt])] at h
          exact scanBestAux_ne_some_none rest _ h
    · have hm2 : b.markedAt i j = true := by
        cases h2 : b.markedAt i j
        · exact absurd h2 hm
        · rfl
      rw [hm2] at h
      simp only [Bool.not_true, if_false] at h
      exact scanBestAux_ne_some_none rest _ h

theorem scanBestAux_some_none_marked {b : RectangularBoard} {single : Bool} :
    ∀ coords : List (Nat × Nat),
      scanBestAux b single coords none = some none →
      ∀ ij ∈ coords, b.markedAt ij.1 ij.2 = true
  | [], _, _, h => by cases h
  | (i, j) :: rest, h, ij, hij => by
    unfold scanBestAux at h
    by_cases hm : b.markedAt i j = true
    · rw [hm] at h
      simp only [Bool.not_true, if_false] at h
      rcases List.mem_cons.mp hij with rfl | h2
      · exact hm
      · exact scanBestAux_some_none_marked rest h ij h2
    · have hm2 : b.markedAt i j = false := by
        cases h2 : b.markedAt i j
        · rfl
        · exact absurd h2 hm
      rw [hm2] at h
      simp only [Bool.not_false, if_true] at h
      by_cases h4 : (!single && decide (b.countAt i j = 4)) = true
      · rw [if_pos h4] at h
        cases h
      · rw [if_neg h4] at h
        exact absurd h (scanBestAux_ne_some_none rest _)

theorem scanBestAux_best_spec {b : RectangularBoard} {single : Bool} :
    ∀ (coords : List (Nat × Nat)) (acc : ScanAcc) (r : (Nat × Nat) × Nat),
      (∀ a, acc = some a →
        b.markedAt a.1.1 a.1.2 = false ∧ a.1.1 < b.height ∧ a.1.2 < b.width) →
      (∀ ij ∈ coords, ij.1 < b.height ∧ ij.2 < b.width) →
      scanBestAux b single coords acc = some (some r) →
      b.markedAt r.1.1 r.1.2 = false ∧ r.1.1 < b.height ∧ r.1.2 < b.width
  | [], acc, r, hacc, _, h => by
    cases h
    exact hacc r rfl
  | (i, j) :: rest, acc, r, hacc, hcoords, h => by
    have hrest : ∀ ij ∈ rest, ij.1 < b.height ∧ ij.2 < b.width :=
      fun ij hij => hcoords ij (List.mem_cons_of_mem _ hij)
    unfold scanBestAux at h
    by_cases hm : b.markedAt i j = true
    · rw [hm] at h
      simp only [Bool.not_true, if_false] at h
      exact scanBestAux_best_spec rest acc r hacc hrest h
    · have hm2 : b.markedAt i j = false := by
        cases h2 : b.markedAt i j
        · rfl
        · exact absurd h2 hm
      rw [hm2] at h
      simp only [Bool.not_false, if_true] at h
      by_cases h4 : (!single && decide (b.countAt i j = 4)) = true
      · rw [if_pos h4] at h
        cases h
      · rw [if_neg h4] at h
        cases acc with
        | none =>
          refine scanBestAux_best_spec rest _ r ?_ hrest h
          rintro a ha
          cases ha
          exact ⟨hm2, (hcoords (i, j) (List.mem_cons_self _ _)).1,
            (hcoords (i, j) (List.mem_cons_self _ _)).2⟩
        | some a =>
          by_cases hlt : a.2 < b.countAt i j
          · rw [if_pos (by simp [hlt])] at h
            refine scanBestAux_best_spec rest _ r ?_ hrest h
            rintro a2 ha2
            cases ha2
            exact ⟨hm2, (hcoords (i, j) (List.mem_cons_self _ _)).1,
              (hcoords (i, j) (List.mem_cons_self _ _)).2⟩
          · rw [if_neg (by simp [hlt])] at h
            exact scanBestAux_best_spec rest (some a) r hacc hrest h

theorem scanBestAux_none_exists {b : RectangularBoard} {single : Bool} :
    ∀ (coords : List (Nat × Nat)) (acc : ScanAcc),
      scanBestAux b single coords acc = none →
      single = false ∧ ∃ ij ∈ coords, b.markedAt ij.1 ij.2 = false ∧
        b.countAt ij.1 ij.2 = 4
  | [], acc, h => by cases h
  | (i, j) :: rest, acc, h => by
    unfold scanBestAux at h
    by_cases hm : b.markedAt i j = true
    · rw [hm] at h
      simp only [Bool.not_true, if_false] at h
      obtain ⟨hs, ij, hij, hspec⟩ := scanBestAux_none_exists rest acc h
      exact ⟨hs, ij, List.mem_cons_of_mem _ hij, hspec⟩
    · have hm2 : b.markedAt i j = false := by
        cases h2 : b.markedAt i j
        · rfl
        · exact absurd h2 hm
      rw [hm2] at h
      simp only [Bool.not_false, if_true] at h
      by_cases h4 : (!single && decide (b.countAt i j = 4)) = true
      · simp only [Bool.and_eq_true, Bool.not_eq_true', decide_eq_true_eq] at h4
        exact ⟨h4.1, (i, j), List.mem_cons_self _ _, hm2, h4.2⟩
      · rw [if_neg h4] at h
        cases acc with
        | none =>
          obtain ⟨hs, ij, hij, hspec⟩ := scanBestAux_none_exists rest _ h
          exact ⟨hs, ij, List.mem_cons_of_mem _ hij, hspec⟩
        | some a =>
          by_cases hlt : a.2 < b.countAt i j
          · rw [if_pos (by simp [hlt])] at h
            obtain ⟨hs, ij, hij, hspec⟩ := scanBestAux_none_exists rest _ h
            exact ⟨hs, ij, List.mem_cons_of_mem _ hij, hspec⟩
          · rw [if_neg (by simp [hlt])] at h
            obtain ⟨hs, ij, hij, hspec⟩ := scanBestAux_none_exists rest _ h
            exact ⟨hs, ij, List.mem_cons_of_mem _ hij, hspec⟩

theorem scanBest_some_none_all_marked {b : RectangularBoard} {tc : TileCollection}
    (hWF : b.WF) (h : b.scanBest tc = some none) : b.is_all_marked = true := by
  rw [is_all_marked_iff hWF, Finset.eq_empty_iff_forall_not_mem]
  intro x hx
  rw [mem_unmarkedCells] at hx
  unfold validUnmarked is_valid is_marked at hx
  simp only [Bool.and_eq_true, Bool.not_eq_true', decide_eq_true_eq] at hx
  obtain ⟨⟨⟨⟨hx0, hxh⟩, hy0⟩, hyw⟩, hm⟩ := hx
  have := scanBestAux_some_none_marked _ h (x.x.toNat, x.y.toNat)
    (mem_scanCoords.mpr ⟨by omega, by omega⟩)
  rw [this] at hm
  cases hm

theorem scanBest_best_spec {b : RectangularBoard} {tc : TileCollection}
    {r : (Nat × Nat) × Nat} (h : b.scanBest tc = some (some r)) :
    b.markedAt r.1.1 r.1.2 = false ∧ r.1.1 < b.height ∧ r.1.2 < b.width := by
  refine scanBestAux_best_spec _ none r ?_ ?_ h
  · rintro a ha
    cases ha
  · intro ij hij
    exact mem_scanCoords.mp hij

theorem place_tile_of_scan_none {b : RectangularBoard} {tc : TileCollection}
    (h : b.scanBest tc = none) : b.place_tile tc = [] := by
  rw [place_tile, h]

theorem place_tile_of_scan_some_none {b : RectangularBoard} {tc : TileCollection}
    (h : b.scanBest tc = some none) : b.place_tile tc = [] := by
  rw [place_tile, h]
  rfl

theorem place_tile_of_scan_best {b : RectangularBoard} {tc : TileCollection}
    {i j : Nat} {cnt : Nat} (h : b.scanBest tc = some (some ((i, j), cnt))) :
    b.place_tile tc = (b.fittingTiles tc i j).map (b.mark_tile_at_position) := by
  rw [place_tile, h]

end RectangularBoard

theorem foldl_filterMap_eq {α β γ : Type} (f : α → Option β) (g : γ → β → γ) :
    ∀ (l : List α) (init : γ),
      (l.filterMap f).foldl g init =
        l.foldl (fun acc x => match f x with | some y => g acc y | none => acc) init
  | [], _ => rfl
  | x :: l, init => by
    rw [List.foldl_cons]
    cases hf : f x
    · rw [List.filterMap_cons_none hf, foldl_filterMap_eq f g l]
    · rw [List.filterMap_cons_some hf, List.foldl_cons, foldl_filterMap_eq f g l]

theorem foldl_flatMap_eq {α β γ : Type} (f : α → List β) (g : γ → β → γ) :
    ∀ (l : List α) (init : γ),
      (l.flatMap f).foldl g init = l.foldl (fun acc x => (f x).foldl g acc) init
  | [], _ => rfl
  | x :: l, init => by
    rw [List.flatMap_cons, List.foldl_append, List.foldl_cons, foldl_flatMap_eq f g l]

namespace RectangularBoard

/-- The raw (undeduplicated) list of covered lists that `place_tile`
enumerates at the chosen cell. -/
theorem fittingTiles_eq (b : RectangularBoard) (tc : TileCollection) (i j : Nat) :
    b.fittingTiles tc i j =
      (tc.tiles.flatMap (fun tile =>
        (List.range (tile.directions.length + 1)).filterMap (fun k =>
          b.tile_fits_at_position tile ⟨(i : Int), (j : Int)⟩ k))).foldl
        (fun acc tp =>
          if acc.any (fun tp2 => tp2.toFinset = tp.toFinset) then acc else acc ++ [tp])
        [] := by
  rw [foldl_flatMap_eq]
  unfold fittingTiles
  simp only [foldl_filterMap_eq]
  congr 1
  funext acc tile
  congr 1
  funext acc2 k
  cases b.tile_fits_at_position tile ⟨(i : Int), (j : Int)⟩ k <;> rfl

end RectangularBoard

theorem dedupFold_mem_of_mem :
    ∀ (L : List (List Position)) (acc : List (List Position)) (tp : List Position),
      tp ∈ acc →
      tp ∈ L.foldl (fun acc tp =>
        if acc.any (fun tp2 => tp2.toFinset = tp.toFinset) then acc else acc ++ [tp]) acc
  | [], _, _, h => h
  | x :: L, acc, tp, h => by
    rw [List.foldl_cons]
    by_cases hx : (acc.any (fun tp2 => tp2.toFinset = x.toFinset)) = true
    · rw [if_pos hx]
      exact dedupFold_mem_of_mem L acc tp h
    · rw [if_neg hx]
      exact dedupFold_mem_of_mem L _ tp (List.mem_append.mpr (Or.inl h))

theorem dedupFold_mem :
    ∀ (L : List (List Position)) (acc : List (List Position)) (tp : List Position),
      tp ∈ L.foldl (fun acc tp =>
        if acc.any (fun tp2 => tp2.toFinset = tp.toFinset) then acc else acc ++ [tp]) acc →
      tp ∈ acc ∨ tp ∈ L
  | [], _, _, h => Or.inl h
  | x :: L, acc, tp, h => by
    rw [List.foldl_cons] at h
    by_cases hx : (acc.any (fun tp2 => tp2.toFinset = x.toFinset)) = true
    · rw [if_pos hx] at h
      rcases dedupFold_mem L acc tp h with h2 | h2
      · exact Or.inl h2
      · exact Or.inr (List.mem_cons_of_mem _ h2)
    · rw [if_neg hx] at h
      rcases dedupFold_mem L _ tp h with h2 | h2
      · rcases List.mem_append.mp h2 with h3 | h3
        · exact Or.inl h3
        · rcases List.mem_singleton.mp h3 with rfl
          exact Or.inr (List.mem_cons_self _ _)
      · exact Or.inr (List.mem_cons_of_mem _ h2)

theorem dedupFold_covers :
    ∀ (L : List (List Position)) (acc : List (List Position)) (C : Finset Position),
      ((∃ tp ∈ acc, tp.toFinset = C) ∨ (∃ x ∈ L, x.toFinset = C)) →
      ∃ tp ∈ L.foldl (fun acc tp =>
        if acc.any (fun tp2 => tp2.toFinset = tp.toFinset) then acc else acc ++ [tp]) acc,
        tp.toFinset = C
  | [], acc, C, h => by
    rcases h with ⟨tp, htp, hC⟩ | ⟨x, hx, _⟩
    · exact ⟨tp, htp, hC⟩
    · cases hx
  | x :: L, acc, C, h => by
    rw [List.foldl_cons]
    by_cases hx : (acc.any (fun tp2 => tp2.toFinset = x.toFinset)) = true
    · rw [if_pos hx]
      rcases h with ⟨tp, htp, hC⟩ | ⟨y, hy, hC⟩
      · exact dedupFold_covers L acc C (Or.inl ⟨tp, htp, hC⟩)
      · rcases List.mem_cons.mp hy with rfl | hy2
        · rw [List.any_eq_true] at hx
          obtain ⟨tp2, htp2, he⟩ := hx
          rw [decide_eq_true_eq] at he
          exact dedupFold_covers L acc C (Or.inl ⟨tp2, htp2, by rw [he, hC]⟩)
        · exact dedupFold_covers L acc C (Or.inr ⟨y, hy2, hC⟩)
    · rw [if_neg hx]
      rcases h with ⟨tp, htp, hC⟩ | ⟨y, hy, hC⟩
      · exact dedupFold_covers L _ C
          (Or.inl ⟨tp, List.mem_append.mpr (Or.inl htp), hC⟩)
      · rcases List.mem_cons.mp hy with rfl | hy2
        · exact dedupFold_covers L _ C
            (Or.inl ⟨y, List.mem_append.mpr (Or.inr (List.mem_singleton.mpr rfl)), hC⟩)
        · exact dedupFold_covers L _ C (Or.inr ⟨y, hy2, hC⟩)

theorem dedupFold_nodup :
    ∀ (L : List (List Position)) (acc : List (List Position)),
      (acc.map List.toFinset).Nodup →
      ((L.foldl (fun acc tp =>
        if acc.any (fun tp2 => tp2.toFinset = tp.toFinset) then acc
        else acc ++ [tp]) acc).map List.toFinset).Nodup
  | [], _, h => h
  | x :: L, acc, h => by
    rw [List.foldl_cons]
    by_cases hx : (acc.any (fun tp2 => tp2.toFinset = x.toFinset)) = true
    · rw [if_pos hx]
      exact dedupFold_nodup L acc h
    · rw [if_neg hx]
      refine dedupFold_nodup L _ ?_
      rw [List.map_append]
      rw [List.nodup_append]
      refine ⟨h, by simp, ?_⟩
      intro C hC
      simp only [List.map_cons, List.map_nil, List.mem_singleton]
      intro hCx
      rw [List.mem_map] at hC
      obtain ⟨tp2, htp2, rfl⟩ := hC
      rw [List.any_eq_true] at hx
      exact hx ⟨tp2, htp2, by rw [decide_eq_true_eq]; exact hCx⟩

namespace RectangularBoard

theorem mem_rawFits {b : RectangularBoard} {tc : TileCollection} {i j : Nat}
    {x : List Position} :
    x ∈ (tc.tiles.flatMap (fun tile =>
        (List.range (tile.directions.length + 1)).filterMap (fun k =>
          b.tile_fits_at_position tile ⟨(i : Int), (j : Int)⟩ k))) ↔
      ∃ t ∈ tc.tiles, ∃ k ≤ t.directions.length,
        b.tile_fits_at_position t ⟨(i : Int), (j : Int)⟩ k = some x := by
  rw [List.mem_flatMap]
  constructor
  · rintro ⟨tile, htile, hx⟩
    rw [List.mem_filterMap] at hx
    obtain ⟨k, hk, hfit⟩ := hx
    rw [List.mem_range] at hk
    exact ⟨tile, htile, k, by omega, hfit⟩
  · rintro ⟨t, ht, k, hk, hfit⟩
    exact ⟨t, ht, List.mem_filterMap.mpr ⟨k, List.mem_range.mpr (by omega), hfit⟩⟩

theorem mem_fittingTiles {b : RectangularBoard} {tc : TileCollection} {i j : Nat}
    {tp : List Position} (h : tp ∈ b.fittingTiles tc i j) :
    ∃ t ∈ tc.tiles, ∃ k ≤ t.directions.length,
      b.tile_fits_at_position t ⟨(i : Int), (j : Int)⟩ k = some tp := by
  rw [fittingTiles_eq] at h
  rcases dedupFold_mem _ _ _ h with h2 | h2
  · cases h2
  · exact mem_rawFits.mp h2

theorem fittingTiles_complete {b : RectangularBoard} {tc : TileCollection} {i j : Nat}
    {t : Tile} (ht : t ∈ tc.tiles) {k : Nat} {cov : List Position}
    (hk : k ≤ t.directions.length)
    (hfit : b.tile_fits_at_position t ⟨(i : Int), (j : Int)⟩ k = some cov) :
    ∃ tp ∈ b.fittingTiles tc i j, tp.toFinset = cov.toFinset := by
  rw [fittingTiles_eq]
  exact dedupFold_covers _ _ _
    (Or.inr ⟨cov, mem_rawFits.mpr ⟨t, ht, k, hk, hfit⟩, rfl⟩)

theorem fittingTiles_nodup {b : RectangularBoard} {tc : TileCollection} {i j : Nat} :
    ((b.fittingTiles tc i j).map List.toFinset).Nodup := by
  rw [fittingTiles_eq]
  exact dedupFold_nodup _ _ (by simp)

theorem validUnmarked_mark_tile_iff {b : RectangularBoard} (hWF : b.WF)
    {cov : List Position} (hnd : cov.Nodup)
    (hval : ∀ q ∈ cov, b.validUnmarked q = true) (x : Position) :
    (b.mark_tile_at_position cov).validUnmarked x = true ↔
      b.validUnmarked x = true ∧ x ∉ cov := by
  rw [← mem_unmarkedCells, unmarkedCells_mark_tile hWF hnd hval, Finset.mem_sdiff,
    mem_unmarkedCells, List.mem_toFinset]

end RectangularBoard

theorem opposite_isCardinal {d : Direction} (h : d.isCardinal = true) :
    d.opposite.isCardinal = true := by
  cases d <;> first | rfl | cases h

theorem add_vec (p : Position) (d : Direction) :
    p.add d.vec = move_in_direction p d := rfl

namespace RectangularBoard

theorem blocked_of_count4 {b : RectangularBoard} (hOK : b.CountsOK) {i j : Nat}
    (hi : i < b.height) (hj : j < b.width) (hc4 : b.countAt i j = 4)
    (d : Direction) (hd : d.isCardinal = true) :
    b.validUnmarked (move_in_direction ⟨(i : Int), (j : Int)⟩ d) = false := by
  have hle := hOK i hi j hj
  rw [hc4] at hle
  unfold blockedCount at hle
  by_contra hcon
  have hvu : b.validUnmarked (move_in_direction ⟨(i : Int), (j : Int)⟩ d) = true := by
    cases h2 : b.validUnmarked (move_in_direction ⟨(i : Int), (j : Int)⟩ d)
    · exact absurd h2 hcon
    · rfl
  cases d
  case Up =>
    rw [if_pos hvu] at hle
    have h1 : ∀ q : Position, (if b.validUnmarked q = true then 0 else 1) ≤ 1 := by
      intro q
      split <;> omega
    have := h1 (move_in_direction ⟨(i : Int), (j : Int)⟩ Direction.Down)
    have := h1 (move_in_direction ⟨(i : Int), (j : Int)⟩ Direction.Left)
    have := h1 (move_in_direction ⟨(i : Int), (j : Int)⟩ Direction.Right)
    omega
  case Down =>
    rw [if_pos hvu] at hle
    have h1 : ∀ q : Position, (if b.validUnmarked q = true then 0 else 1) ≤ 1 := by
      intro q
      split <;> omega
    have := h1 (move_in_direction ⟨(i : Int), (j : Int)⟩ Direction.Up)
    have := h1 (move_in_direction ⟨(i : Int), (j : Int)⟩ Direction.Left)
    have := h1 (move_in_direction ⟨(i : Int), (j : Int)⟩ Direction.Right)
    omega
  case Left =>
    rw [if_pos hvu] at hle
    have h1 : ∀ q : Position, (if b.validUnmarked q = true then 0 else 1) ≤ 1 := by
      intro q
      split <;> omega
    have := h1 (move_in_direction ⟨(i : Int), (j : Int)⟩ Direction.Up)
    have := h1 (move_in_direction ⟨(i : Int), (j : Int)⟩ Direction.Down)
    have := h1 (move_in_direction ⟨(i : Int), (j : Int)⟩ Direction.Right)
    omega
  case Right =>
    rw [if_pos hvu] at hle
    have h1 : ∀ q : Position, (if b.validUnmarked q = true then 0 else 1) ≤ 1 := by
      intro q
      split <;> omega
    have := h1 (move_in_direction ⟨(i : Int), (j : Int)⟩ Direction.Up)
    have := h1 (move_in_direction ⟨(i : Int), (j : Int)⟩ Direction.Down)
    have := h1 (move_in_direction ⟨(i : Int), (j : Int)⟩ Direction.Left)
    omega
  all_goals cases hd

/-- Any covered cell of a fitted cardinal tile of size at least two has a
cardinally adjacent covered companion. -/
theorem fits_companion {b : RectangularBoard} {t : Tile} {p : Position} {k : Nat}
    (hk : k ≤ t.directions.length) {cov : List Position}
    (hfit : b.tile_fits_at_position t p k = some cov)
    (hAC : ∀ d ∈ t.directions, d.isCardinal = true)
    (hne : t.directions ≠ []) {c : Position} (hc : c ∈ cov) :
    ∃ d : Direction, d.isCardinal = true ∧
      move_in_direction c d ∈ cov := by
  obtain ⟨i0, hi0, hceq⟩ := (fits_cov_mem_iff hk hfit).mp hc
  rcases Nat.lt_or_ge i0 t.directions.length with hlt | hge
  · refine ⟨t.directions.get ⟨i0, hlt⟩, hAC _ (List.get_mem _ _ _), ?_⟩
    have hnext : chainCell t k p (i0 + 1) ∈ cov :=
      (fits_cov_mem_iff hk hfit).mpr ⟨i0 + 1, by omega, rfl⟩
    rw [chainCell_succ t k p i0 hlt, ← hceq, add_vec] at hnext
    exact hnext
  · have hi0e : i0 = t.directions.length := by omega
    have hlen : 0 < t.directions.length := List.length_pos.mpr hne
    have hlt2 : t.directions.length - 1 < t.directions.length := by omega
    set d := t.directions.get ⟨t.directions.length - 1, hlt2⟩ with hd
    refine ⟨d.opposite, opposite_isCardinal (hAC _ (List.get_mem _ _ _)), ?_⟩
    have hprev : chainCell t k p (t.directions.length - 1) ∈ cov :=
      (fits_cov_mem_iff hk hfit).mpr ⟨t.directions.length - 1, by omega, rfl⟩
    have hstep := chainCell_succ t k p (t.directions.length - 1) hlt2
    rw [show t.directions.length - 1 + 1 = t.directions.length by omega] at hstep
    have hcc : c = (chainCell t k p (t.directions.length - 1)).add d.vec := by
      rw [hceq, hi0e, hstep]
    have hmv : move_in_direction c d.opposite =
        chainCell t k p (t.directions.length - 1) := by
      rw [hcc]
      apply Position.ext_xy
      · show (chainCell t k p (t.directions.length - 1)).x + d.vec.x +
            d.opposite.rowDelta = _
        have hop : d.opposite.vec = ⟨-d.vec.x, -d.vec.y⟩ := vec_opposite d
        have hopx : d.opposite.rowDelta = -d.vec.x := congrArg Position.x hop
        omega
      · show (chainCell t k p (t.directions.length - 1)).y + d.vec.y +
            d.opposite.colDelta = _
        have hop : d.opposite.vec = ⟨-d.vec.x, -d.vec.y⟩ := vec_opposite d
        have hopy : d.opposite.colDelta = -d.vec.y := congrArg Position.y hop
        omega
    rw [hmv]
    exact hprev

/-- No tile of a cardinal, single-free collection can ever cover an
unmarked cell whose constraint count is 4, on the board itself or on any
board with more marked cells. -/
theorem no_fit_covers_count4 {b : RectangularBoard} (hOK : b.CountsOK)
    {tc : TileCollection} (hAC : tc.AllCardinal)
    (hns : tc.contains_single_tile = false) {i j : Nat}
    (hi : i < b.height) (hj : j < b.width) (hc4 : b.countAt i j = 4)
    {b2 : RectangularBoard}
    (hmono : ∀ q, b2.validUnmarked q = true → b.validUnmarked q = true)
    {t : Tile} (ht : t ∈ tc.tiles) {p : Position} {k : Nat} {cov : List Position}
    (hk : k ≤ t.directions.length)
    (hfit : b2.tile_fits_at_position t p k = some cov) :
    (⟨(i : Int), (j : Int)⟩ : Position) ∉ cov := by
  intro hmem
  have hne : t.directions ≠ [] := by
    intro hnil
    unfold TileCollection.contains_single_tile at hns
    rw [List.any_eq_false] at hns
    have := hns t ht
    rw [hnil] at this
    exact this rfl
  obtain ⟨d, hd, hqmem⟩ := fits_companion hk hfit (hAC t ht) hne hmem
  have hq2 : b2.validUnmarked (move_in_direction ⟨(i : Int), (j : Int)⟩ d) = true :=
    fits_cov_validUnmarked hk hfit _ hqmem
  have hqb : b.validUnmarked (move_in_direction ⟨(i : Int), (j : Int)⟩ d) = true :=
    hmono _ hq2
  rw [blocked_of_count4 hOK hi hj hc4 d hd] at hqb
  cases hqb

/-- If no tile fits at the chosen cell in any anchor role, no fit on the
board (or on any board with more marked cells) covers that cell. -/
theorem no_fit_covers_bestcell {b : RectangularBoard} {tc : TileCollection} {i j : Nat}
    (hfe : b.fittingTiles tc i j = [])
    {b2 : RectangularBoard}
    (hmono : ∀ q, b2.validUnmarked q = true → b.validUnmarked q = true)
    {t : Tile} (ht : t ∈ tc.tiles) {p : Position} {k : Nat} {cov : List Position}
    (hk : k ≤ t.directions.length)
    (hfit : b2.tile_fits_at_position t p k = some cov) :
    (⟨(i : Int), (j : Int)⟩ : Position) ∉ cov := by
  intro hmem
  have hfitb : b.tile_fits_at_position t p k = some cov := fits_mono hk hmono hfit
  obtain ⟨i0, hi0, hceq⟩ := (fits_cov_mem_iff hk hfitb).mp hmem
  obtain ⟨cov2, hfit2, _⟩ := fits_reanchor hk hi0 hfitb
  rw [← hceq] at hfit2
  obtain ⟨tp, htp, _⟩ := fittingTiles_complete ht hi0 hfit2
  rw [hfe] at htp
  cases htp

theorem mem_placements {b : RectangularBoard} {tc : TileCollection} {F : Finset Position} :
    F ∈ b.placements tc ↔
      ∃ t ∈ tc.tiles, ∃ p : Position, ∃ k, k ≤ t.directions.length ∧
        ∃ cov, b.tile_fits_at_position t p k = some cov ∧ F = cov.toFinset := by
  unfold placements
  rw [List.mem_dedup, List.mem_map]
  constructor
  · rintro ⟨cov, hcov, rfl⟩
    simp only [List.mem_flatMap, List.mem_filterMap, List.mem_range] at hcov
    obtain ⟨i, hi, j, hj, tile, htile, k, hk, hfit⟩ := hcov
    exact ⟨tile, htile, ⟨(i : Int), (j : Int)⟩, k, by omega, cov, hfit, rfl⟩
  · rintro ⟨t, ht, p, k, hk, cov, hfit, rfl⟩
    refine ⟨cov, ?_, rfl⟩
    have hpv : b.validUnmarked p = true :=
      fits_cov_validUnmarked hk hfit _ (fits_anchor_mem hk hfit)
    have hpb : 0 ≤ p.x ∧ p.x < (b.height : Int) ∧ 0 ≤ p.y ∧ p.y < (b.width : Int) := by
      unfold validUnmarked is_valid at hpv
      simp only [Bool.and_eq_true, decide_eq_true_eq] at hpv
      exact ⟨hpv.1.1.1.1, hpv.1.1.1.2, hpv.1.1.2, hpv.1.2⟩
    simp only [List.mem_flatMap, List.mem_filterMap, List.mem_range]
    refine ⟨p.x.toNat, by omega, p.y.toNat, by omega, t, ht, k, by omega, ?_⟩
    rw [show (⟨(p.x.toNat : Nat), (p.y.toNat : Nat)⟩ : Position) = p from
      Position.ext_xy (show ((p.x.toNat : Nat) : Int) = p.x by omega)
        (show ((p.y.toNat : Nat) : Int) = p.y by omega)]
    exact hfit

theorem mem_tilings {b : RectangularBoard} {tc : TileCollection}
    {S : Finset (Finset Position)} :
    S ∈ b.tilings tc ↔
      (∀ C ∈ S, C ∈ b.placements tc) ∧
      (∀ C ∈ S, ∀ D ∈ S, C ≠ D → Disjoint C D) ∧
      S.sup id = b.unmarkedCells := by
  unfold tilings
  rw [Finset.mem_filter, Finset.mem_powerset]
  constructor
  · rintro ⟨hsub, hdisj, hsup⟩
    refine ⟨?_, hdisj, hsup⟩
    intro C hC
    have := hsub hC
    rwa [List.mem_toFinset] at this
  · rintro ⟨hsub, hdisj, hsup⟩
    refine ⟨?_, hdisj, hsup⟩
    intro C hC
    rw [List.mem_toFinset]
    exact hsub C hC

theorem tiling_unique_cover {b : RectangularBoard} {tc : TileCollection}
    {S : Finset (Finset Position)} (hS : S ∈ b.tilings tc) {c : Position}
    (hc : c ∈ b.unmarkedCells) :
    ∃ C, (C ∈ S ∧ c ∈ C) ∧ ∀ D, D ∈ S ∧ c ∈ D → D = C := by
  obtain ⟨hsub, hdisj, hsup⟩ := mem_tilings.mp hS
  have hcs : c ∈ S.sup id := by rw [hsup]; exact hc
  rw [Finset.mem_sup] at hcs
  obtain ⟨C, hCS, hcC⟩ := hcs
  refine ⟨C, ⟨hCS, hcC⟩, ?_⟩
  rintro D ⟨hDS, hcD⟩
  by_contra hne
  exact (Finset.disjoint_left.mp (hdisj D hDS C hCS hne) hcD) hcC

theorem tiling_filter_eq {S : Finset (Finset Position)} {c : Position}
    {C : Finset Position} (huniq : ∀ D, D ∈ S ∧ c ∈ D → D = C)
    (hC : C ∈ S) (hcC : c ∈ C) :
    (S.filter (fun D => c ∈ D)).sup id = C := by
  have hf : S.filter (fun D => c ∈ D) = {C} := by
    ext D
    rw [Finset.mem_filter, Finset.mem_singleton]
    constructor
    · rintro ⟨hDS, hcD⟩
      exact huniq D ⟨hDS, hcD⟩
    · rintro rfl
      exact ⟨hC, hcC⟩
  rw [hf, Finset.sup_singleton]
  rfl

theorem fit_transfer {b : RectangularBoard} (hWF : b.WF) {cov : List Position}
    (hnd : cov.Nodup) (hval : ∀ q ∈ cov, b.validUnmarked q = true)
    {t : Tile} {p : Position} {k : Nat} {cov2 : List Position}
    (hk : k ≤ t.directions.length)
    (hfit : b.tile_fits_at_position t p k = some cov2)
    (hdisj : ∀ q ∈ cov2, q ∉ cov) :
    (b.mark_tile_at_position cov).tile_fits_at_position t p k = some cov2 := by
  obtain ⟨hall, hcv⟩ := (tile_fits_eq_some_iff hk).mp hfit
  apply (tile_fits_eq_some_iff hk).mpr
  refine ⟨?_, hcv⟩
  intro i2 hi2
  rw [validUnmarked_mark_tile_iff hWF hnd hval]
  refine ⟨hall i2 hi2, ?_⟩
  apply hdisj
  exact (fits_cov_mem_iff hk hfit).mpr ⟨i2, hi2, rfl⟩

theorem placements_mark_tile_subset {b : RectangularBoard} {tc : TileCollection}
    {cov : List Position} {F : Finset Position}
    (hF : F ∈ (b.mark_tile_at_position cov).placements tc) : F ∈ b.placements tc := by
  rw [mem_placements] at hF ⊢
  obtain ⟨t, ht, p, k, hk, cov2, hfit, rfl⟩ := hF
  exact ⟨t, ht, p, k, hk, cov2,
    fits_mono hk (fun q => validUnmarked_mark_tile_mono cov b q) hfit, rfl⟩

theorem sup_erase_of_disjoint {S : Finset (Finset Position)} {C : Finset Position}
    (hC : C ∈ S) (hdisj : ∀ A ∈ S, ∀ B ∈ S, A ≠ B → Disjoint A B) :
    (S.erase C).sup id = S.sup id \ C := by
  ext x
  rw [Finset.mem_sup, Finset.mem_sdiff, Finset.mem_sup]
  constructor
  · rintro ⟨D, hD, hxD⟩
    have hDS := Finset.mem_of_mem_erase hD
    have hne := Finset.ne_of_mem_erase hD
    exact ⟨⟨D, hDS, hxD⟩,
      fun hxC => (Finset.disjoint_left.mp (hdisj D hDS C hC hne) hxD) hxC⟩
  · rintro ⟨⟨D, hD, hxD⟩, hxC⟩
    refine ⟨D, Finset.mem_erase.mpr ⟨?_, hD⟩, hxD⟩
    rintro rfl
    exact hxC hxD

theorem cover_mem_fts {b : RectangularBoard} {tc : TileCollection} {i j : Nat}
    {S : Finset (Finset Position)} (hS : S ∈ b.tilings tc)
    (hcu : (⟨(i : Int), (j : Int)⟩ : Position) ∈ b.unmarkedCells) :
    (S.filter (fun D => (⟨(i : Int), (j : Int)⟩ : Position) ∈ D)).sup id ∈
      ((b.fittingTiles tc i j).map List.toFinset).toFinset := by
  obtain ⟨C, ⟨hCS, hcC⟩, huniq⟩ := tiling_unique_cover hS hcu
  rw [tiling_filter_eq huniq hCS hcC]
  have hCp := (mem_tilings.mp hS).1 C hCS
  rw [mem_placements] at hCp
  obtain ⟨t, ht, p, k, hk, cov, hfit, rfl⟩ := hCp
  rw [List.mem_toFinset] at hcC
  obtain ⟨i0, hi0, hceq⟩ := (fits_cov_mem_iff hk hfit).mp hcC
  obtain ⟨cov2, hfit2, hset⟩ := fits_reanchor hk hi0 hfit
  rw [← hceq] at hfit2
  obtain ⟨tp, htp, htpe⟩ := fittingTiles_complete ht hi0 hfit2
  rw [List.mem_toFinset, List.mem_map]
  exact ⟨tp, htp, by rw [htpe, hset]⟩

theorem fiber_card_eq {b : RectangularBoard} {tc : TileCollection} {i j : Nat}
    (hWF : b.WF)
    (hcu : (⟨(i : Int), (j : Int)⟩ : Position) ∈ b.unmarkedCells)
    {cov : List Position} (hcovFT : cov ∈ b.fittingTiles tc i j) :
    ((b.tilings tc).filter (fun S =>
        (S.filter (fun D => (⟨(i : Int), (j : Int)⟩ : Position) ∈ D)).sup id =
          cov.toFinset)).card =
      ((b.mark_tile_at_position cov).tilings tc).card := by
  obtain ⟨t, ht, k, hk, hfit⟩ := mem_fittingTiles hcovFT
  have hnd : cov.Nodup := fits_cov_nodup hk hfit
  have hval : ∀ q ∈ cov, b.validUnmarked q = true := fits_cov_validUnmarked hk hfit
  have hanch : (⟨(i : Int), (j : Int)⟩ : Position) ∈ cov := fits_anchor_mem hk hfit
  have hcovP : cov.toFinset ∈ b.placements tc :=
    mem_placements.mpr ⟨t, ht, _, k, hk, cov, hfit, rfl⟩
  have hchild_cells : (b.mark_tile_at_position cov).unmarkedCells =
      b.unmarkedCells \ cov.toFinset := unmarkedCells_mark_tile hWF hnd hval
  have hcovsub : cov.toFinset ⊆ b.unmarkedCells := by
    intro q hq
    rw [List.mem_toFinset] at hq
    rw [mem_unmarkedCells]
    exact hval q hq
  apply Finset.card_bij (fun S _ => S.erase cov.toFinset)
  · intro S hSf
    rw [Finset.mem_filter] at hSf
    obtain ⟨hS, hfS⟩ := hSf
    obtain ⟨hsub, hdisj, hsup⟩ := mem_tilings.mp hS
    obtain ⟨C, ⟨hCS, hcC⟩, huniq⟩ := tiling_unique_cover hS hcu
    have hCe : C = cov.toFinset := by rw [← tiling_filter_eq huniq hCS hcC, hfS]
    subst hCe
    rw [mem_tilings]
    refine ⟨?_, ?_, ?_⟩
    · intro D hD
      have hDS := Finset.mem_of_mem_erase hD
      have hne := Finset.ne_of_mem_erase hD
      have hDp := hsub D hDS
      rw [mem_placements] at hDp
      obtain ⟨t2, ht2, p2, k2, hk2, cov2, hfit2, rfl⟩ := hDp
      rw [mem_placements]
      refine ⟨t2, ht2, p2, k2, hk2, cov2, ?_, rfl⟩
      apply fit_transfer hWF hnd hval hk2 hfit2
      intro q hq hqcov
      have hdj := hdisj _ hDS _ hCS hne
      exact (Finset.disjoint_left.mp hdj (List.mem_toFinset.mpr hq))
        (List.mem_toFinset.mpr hqcov)
    · intro A hA B hB hne2
      exact hdisj A (Finset.mem_of_mem_erase hA) B (Finset.mem_of_mem_erase hB) hne2
    · rw [sup_erase_of_disjoint hCS hdisj, hsup, hchild_cells]
  · intro S1 h1 S2 h2 heq
    rw [Finset.mem_filter] at h1 h2
    have hmem1 : cov.toFinset ∈ S1 := by
      obtain ⟨C, ⟨hCS, hcC⟩, huniq⟩ := tiling_unique_cover h1.1 hcu
      have hCe : C = cov.toFinset := by rw [← tiling_filter_eq huniq hCS hcC, h1.2]
      rwa [hCe] at hCS
    have hmem2 : cov.toFinset ∈ S2 := by
      obtain ⟨C, ⟨hCS, hcC⟩, huniq⟩ := tiling_unique_cover h2.1 hcu
      have hCe : C = cov.toFinset := by rw [← tiling_filter_eq huniq hCS hcC, h2.2]
      rwa [hCe] at hCS
    rw [← Finset.insert_erase hmem1, ← Finset.insert_erase hmem2, heq]
  · intro T hT
    obtain ⟨hsubT, hdisjT, hsupT⟩ := mem_tilings.mp hT
    have hTsub : ∀ D ∈ T, D ⊆ b.unmarkedCells \ cov.toFinset := by
      intro D hD
      have h1 : id D ≤ T.sup id := Finset.le_sup hD
      rw [hsupT, hchild_cells] at h1
      exact h1
    have hcovnotT : cov.toFinset ∉ T := by
      intro hmem
      have := hTsub _ hmem (List.mem_toFinset.mpr hanch)
      rw [Finset.mem_sdiff] at this
      exact this.2 (List.mem_toFinset.mpr hanch)
    refine ⟨insert cov.toFinset T, ?_, ?_⟩
    · rw [Finset.mem_filter]
      constructor
      · rw [mem_tilings]
        refine ⟨?_, ?_, ?_⟩
        · intro D hD
          rcases Finset.mem_insert.mp hD with rfl | hDT
          · exact hcovP
          · exact placements_mark_tile_subset (hsubT D hDT)
        · intro A hA B hB hne2
          rcases Finset.mem_insert.mp hA with rfl | hAT
          · rcases Finset.mem_insert.mp hB with rfl | hBT
            · exact absurd rfl hne2
            · rw [Finset.disjoint_left]
              intro x hx hxB
              have := hTsub B hBT hxB
              rw [Finset.mem_sdiff] at this
              exact this.2 hx
          · rcases Finset.mem_insert.mp hB with rfl | hBT
            · rw [Finset.disjoint_right]
              intro x hx hxA
              have := hTsub A hAT hxA
              rw [Finset.mem_sdiff] at this
              exact this.2 hx
            · exact hdisjT A hAT B hBT hne2
        · rw [Finset.sup_insert, hsupT, hchild_cells]
          show cov.toFinset ∪ (b.unmarkedCells \ cov.toFinset) = b.unmarkedCells
          exact Finset.union_sdiff_of_subset hcovsub
      · apply tiling_filter_eq
        · rintro D ⟨hDS, hcD⟩
          rcases Finset.mem_insert.mp hDS with rfl | hDT
          · rfl
          · exfalso
            have := hTsub D hDT hcD
            rw [Finset.mem_sdiff] at this
            exact this.2 (List.mem_toFinset.mpr hanch)
        · exact Finset.mem_insert_self _ _
        · exact List.mem_toFinset.mpr hanch
    · rw [Finset.erase_insert hcovnotT]

/-- The node equation: on a well-formed, count-consistent, not fully marked
board, the number of tilings equals the sum of the numbers of tilings of the
successors `place_tile` generates (in particular `0` when `place_tile` prunes). -/
theorem node_eq {b : RectangularBoard} {tc : TileCollection}
    (hWF : b.WF) (hOK : b.CountsOK) (hAC : tc.AllCardinal)
    (hns : tc.contains_single_tile = false) (hnm : b.is_all_marked = false) :
    b.specCount tc = ((b.place_tile tc).map (fun c2 => c2.specCount tc)).sum := by
  rcases hscan : b.scanBest tc with _ | acc
  · rw [place_tile_of_scan_none hscan, List.map_nil, List.sum_nil]
    obtain ⟨hsf, ⟨i, j⟩, hmem, hunm, hc4⟩ := scanBestAux_none_exists _ _ hscan
    obtain ⟨hi, hj⟩ := mem_scanCoords.mp hmem
    show (b.tilings tc).card = 0
    rw [Finset.card_eq_zero, Finset.eq_empty_iff_forall_not_mem]
    intro S hS
    have hc : (⟨(i : Int), (j : Int)⟩ : Position) ∈ b.unmarkedCells := by
      rw [mem_unmarkedCells]
      unfold validUnmarked is_valid is_marked
      simp only [Bool.and_eq_true, Bool.not_eq_true', decide_eq_true_eq,
        Int.toNat_natCast]
      exact ⟨⟨⟨⟨by omega, by omega⟩, by omega⟩, by omega⟩, hunm⟩
    obtain ⟨C, ⟨hCS, hcC⟩, _⟩ := tiling_unique_cover hS hc
    have hCp := (mem_tilings.mp hS).1 C hCS
    rw [mem_placements] at hCp
    obtain ⟨t, ht, p, k, hk, cov, hfit, rfl⟩ := hCp
    rw [List.mem_toFinset] at hcC
    exact no_fit_covers_count4 hOK hAC hsf hi hj hc4 (fun q h => h) ht hk hfit hcC
  · rcases acc with _ | ⟨⟨i, j⟩, cnt⟩
    · rw [scanBest_some_none_all_marked hWF hscan] at hnm
      cases hnm
    · rw [place_tile_of_scan_best hscan, List.map_map]
      obtain ⟨hunm, hi, hj⟩ := scanBest_best_spec hscan
      have hi2 : i < b.height := hi
      have hj2 : j < b.width := hj
      have hunm2 : b.markedAt i j = false := hunm
      have hcu : (⟨(i : Int), (j : Int)⟩ : Position) ∈ b.unmarkedCells := by
        rw [mem_unmarkedCells]
        unfold validUnmarked is_valid is_marked
        simp only [Bool.and_eq_true, Bool.not_eq_true', decide_eq_true_eq,
          Int.toNat_natCast]
        exact ⟨⟨⟨⟨by omega, by omega⟩, by omega⟩, by omega⟩, hunm2⟩
      have hnodup : ((b.fittingTiles tc i j).map List.toFinset).Nodup :=
        fittingTiles_nodup
      show (b.tilings tc).card = _
      rw [Finset.card_eq_sum_card_fiberwise
        (f := fun S => (S.filter
          (fun D => (⟨(i : Int), (j : Int)⟩ : Position) ∈ D)).sup id)
        (t := ((b.fittingTiles tc i j).map List.toFinset).toFinset)
        (fun S hS => cover_mem_fts hS hcu)]
      rw [List.sum_toFinset _ hnodup, List.map_map]
      apply congrArg List.sum
      apply List.map_congr_left
      intro cov hcov
      show ((b.tilings tc).filter _).card = _
      rw [fiber_card_eq hWF hcu hcov]
      rfl
